import Mathlib

/-!
Verification of the data-records taxonomy manager and record generator.

The definitions below are a shallow embedding of the repository's two
source files:
* `dr_manager.py` — path sanitizer (`slugify_filename`), taxonomy store
  (`Store`), directory synchronizer (`Store.sync_dirs`), the YAML renderer
  and the `gen` command (`cmd_gen`);
* `tools/console/backend/engine_v1.py` — the pydantic record schema
  (`AssetSchema`, `RecordSchema`) and `generate_record_yaml`.

Strings are modelled as Lean `String`s; character-level processing uses
`List Char` (`String.data`).  Filesystem paths are lists of path segments
relative to the store root; the filesystem itself is modelled as the list
of existing directories plus an association list mapping paths to file
contents.
-/

namespace DataRecords

/-! ### Python character classes -/

/-- The characters Python treats as whitespace in `str.strip()`, `str.rstrip()`
and in the whitespace character class of the `re` module for text patterns:
space, U+0009–U+000D, U+001C–U+001F, U+0085 (NEL), U+00A0 (NBSP) and the
Unicode space separators. -/
def pyWs (c : Char) : Bool :=
  let n := c.toNat
  n == 32 || (9 ≤ n && n ≤ 13) || (28 ≤ n && n ≤ 31) || n == 0x85 ||
  n == 0xA0 || n == 0x1680 || (0x2000 ≤ n && n ≤ 0x200A) || n == 0x2028 ||
  n == 0x2029 || n == 0x202F || n == 0x205F || n == 0x3000

/-- The reserved Windows filename characters removed by `slugify_filename`. -/
def reservedChar (c : Char) : Bool :=
  c == '<' || c == '>' || c == ':' || c == '"' || c == '/' || c == '\\' ||
  c == '|' || c == '?' || c == '*'

/-- The character class of `slugify_filename`'s removal regex: the reserved
set together with the C0 control range U+0000–U+001F. -/
def illegalChar (c : Char) : Bool := reservedChar c || decide (c.toNat < 32)

/-- Separator characters collapsed by `slugify_filename` (hyphen and
underscore, the class of the `[-_]{2,}` regex). -/
def sepChar (c : Char) : Bool := c == '-' || c == '_'

/-- The characters stripped from both ends by `.strip("-_.")`. -/
def edgeChar (c : Char) : Bool := c == '-' || c == '_' || c == '.'

/-- An ASCII control character (the C0 range together with DEL, U+007F).
Used to state the spec's "no control characters" requirement. -/
def isControlChar (c : Char) : Bool := decide (c.toNat < 32) || c.toNat == 0x7F

/-! ### List-level helpers shared by the embedding -/

/-- Drop the longest run of characters satisfying `p` from the right end. -/
def dropEndWhile (p : Char → Bool) (l : List Char) : List Char :=
  (l.reverse.dropWhile p).reverse

/-- Strip characters satisfying `p` from both ends (Python `str.strip`). -/
def stripBoth (p : Char → Bool) (l : List Char) : List Char :=
  dropEndWhile p (l.dropWhile p)

/-- Worker for `collapseWs`: when `swallow` is set, the previous character
was whitespace and its run's replacement hyphen has already been emitted. -/
def cwAux (swallow : Bool) : List Char → List Char
  | [] => []
  | c :: rest =>
    if pyWs c then
      if swallow then cwAux true rest else '-' :: cwAux true rest
    else c :: cwAux false rest

/-- Replace every maximal run of whitespace by a single hyphen
(the `re.sub(whitespace-run, "-", name)` step of `slugify_filename`). -/
def collapseWs (l : List Char) : List Char := cwAux false l

/-- Worker for `collapseSep`: when the first argument (`swallow`) is set
we are inside a separator run of length at least two whose replacement
hyphen has already been emitted. -/
def csAux : Bool → List Char → List Char
  | _, [] => []
  | true, c :: rest => if sepChar c then csAux true rest else c :: csAux false rest
  | false, [c] => [c]
  | false, c :: d :: rest =>
    if sepChar c then
      if sepChar d then '-' :: csAux true (d :: rest)
      else c :: csAux false (d :: rest)
    else c :: csAux false (d :: rest)

/-- Replace every maximal run of two or more separator characters by a
single hyphen (the `re.sub("[-_]{2,}", "-", name)` step); a lone separator
is left unchanged. -/
def collapseSep (l : List Char) : List Char := csAux false l

/-- The fallback filename returned for empty or fully-stripped input. -/
def fallbackName : List Char := "unnamed-product".data

/-- Character-level body of `slugify_filename` from `dr_manager.py`:
trim whitespace, fall back on empty input, turn whitespace runs into
hyphens, delete reserved and C0 control characters, collapse separator
runs, strip separators and dots from both ends, and fall back again if
nothing is left. -/
def slugify (l : List Char) : List Char :=
  let t := stripBoth pyWs l
  if t.isEmpty then fallbackName
  else
    let u := stripBoth edgeChar
      (collapseSep ((collapseWs t).filter (fun c => !illegalChar c)))
    if u.isEmpty then fallbackName else u

/-- Embeds `slugify_filename` from `dr_manager.py`, on `String`. -/
def slugify_filename (s : String) : String := String.mk (slugify s.data)


/-! ### Association lists

Python dictionaries keep insertion order; they are modelled as association
lists with the operations below (lookup and update act on the first — in a
real dict, the only — occurrence of a key, insertion appends at the end).
-/

/-- Dictionary lookup `m[k]` / `m.get(k)`. -/
def alook {κ α : Type} [DecidableEq κ] : List (κ × α) → κ → Option α
  | [], _ => none
  | (k', v) :: r, k => if k' = k then some v else alook r k

/-- Dictionary assignment `m[k] = v`: updates an existing key in place,
otherwise appends the new binding at the end. -/
def aset {κ α : Type} [DecidableEq κ] : List (κ × α) → κ → α → List (κ × α)
  | [], k, v => [(k, v)]
  | (k', v') :: r, k, v => if k' = k then (k, v) :: r else (k', v') :: aset r k v

/-- In-place mutation of the value stored at `k` (no effect if absent). -/
def amodify {κ α : Type} [DecidableEq κ] : List (κ × α) → κ → (α → α) → List (κ × α)
  | [], _, _ => []
  | (k', v) :: r, k, f => if k' = k then (k, f v) :: r else (k', v) :: amodify r k f

/-- Dictionary deletion `del m[k]`. -/
def aerase {κ α : Type} [DecidableEq κ] : List (κ × α) → κ → List (κ × α)
  | [], _ => []
  | (k', v) :: r, k => if k' = k then r else (k', v) :: aerase r k

/-- Key membership `k in m`. -/
def hasKey {κ α : Type} [DecidableEq κ] (m : List (κ × α)) (k : κ) : Bool :=
  m.any (fun kv => kv.1 = k)

/-- Embeds `m.keys()` in insertion order. -/
def keysOf {κ α : Type} (m : List (κ × α)) : List κ := m.map (·.1)

/-! ### The taxonomy store (`Store` in `dr_manager.py`) -/

/-- The value of one country: primary category → secondary category list. -/
abbrev Cat1Map := List (String × List String)

/-- Embeds `Store.data`: country → `Cat1Map`, as annotated in the dataclass. -/
abbrev Doc := List (String × Cat1Map)

/-- Python `sorted` on strings (lexicographic by code point). -/
def sortStr (l : List String) : List String := List.insertionSort (· ≤ ·) l

/-- Embeds `Store.countries`. -/
def countries (d : Doc) : List String := sortStr (keysOf d)

/-- Embeds `Store.cat1_list`. -/
def cat1_list (d : Doc) (c : String) : List String :=
  sortStr (keysOf ((alook d c).getD []))

/-- Embeds `Store.cat2_list`. -/
def cat2_list (d : Doc) (c c1 : String) : List String :=
  sortStr ((alook ((alook d c).getD []) c1).getD [])

/-- Embeds `Store.add_country`. -/
def add_country (d : Doc) (c : String) : Doc :=
  if hasKey d c then d else d ++ [(c, [])]

/-- Embeds `Store.add_cat1` (`add_country` then `setdefault(cat1, [])`). -/
def add_cat1 (d : Doc) (c c1 : String) : Doc :=
  amodify (add_country d c) c (fun m => if hasKey m c1 then m else m ++ [(c1, [])])

/-- Embeds `Store.add_cat2` (`add_cat1`, then append-if-absent and sort in place). -/
def add_cat2 (d : Doc) (c c1 c2 : String) : Doc :=
  amodify (add_cat1 d c c1) c (fun m =>
    amodify m c1 (fun l => if c2 ∈ l then l else sortStr (l ++ [c2])))

/-- Embeds `Store.remove_cat2`: `None`/empty list and missing entries report
`False`; otherwise the first occurrence is removed (`list.remove`). -/
def remove_cat2 (d : Doc) (c c1 c2 : String) : Doc × Bool :=
  match alook ((alook d c).getD []) c1 with
  | none => (d, false)
  | some l =>
    if l.isEmpty then (d, false)
    else if c2 ∈ l then
      (amodify d c (fun m => amodify m c1 (fun l' => l'.erase c2)), true)
    else (d, false)

/-- Embeds `Store.remove_cat1`: a missing country, an empty (falsy) country map or
a missing primary category report `False`; otherwise `del` the entry. -/
def remove_cat1 (d : Doc) (c c1 : String) : Doc × Bool :=
  match alook d c with
  | none => (d, false)
  | some m =>
    if m.isEmpty then (d, false)
    else if hasKey m c1 then (amodify d c (fun m' => aerase m' c1), true)
    else (d, false)

/-- The normalization at the end of `Store.load`: insert the default
country `"cn"` when the parsed document lacks it (typed view). -/
def normalizeDocCn (d : Doc) : Doc :=
  if hasKey d "cn" then d else d ++ [("cn", [])]

/-- Store documents reachable through the public `Store` operations,
starting from any successfully loaded (and `"cn"`-normalized) document.
`saved` mirrors `Store.save`, which leaves the in-memory data unchanged. -/
inductive ReachDoc : Doc → Prop where
  | loaded (raw : Doc) : ReachDoc (normalizeDocCn raw)
  | addedCountry {d : Doc} (c : String) : ReachDoc d → ReachDoc (add_country d c)
  | addedCat1 {d : Doc} (c c1 : String) : ReachDoc d → ReachDoc (add_cat1 d c c1)
  | addedCat2 {d : Doc} (c c1 c2 : String) : ReachDoc d → ReachDoc (add_cat2 d c c1 c2)
  | removedCat1 {d : Doc} (c c1 : String) : ReachDoc d → ReachDoc (remove_cat1 d c c1).1
  | removedCat2 {d : Doc} (c c1 c2 : String) : ReachDoc d → ReachDoc (remove_cat2 d c c1 c2).1
  | saved {d : Doc} : ReachDoc d → ReachDoc d

/-- Well-formedness of a store document: unique keys at both mapping
levels, and each secondary-category list duplicate-free and sorted. -/
def WFDoc (d : Doc) : Prop :=
  (keysOf d).Nodup ∧
  ∀ p ∈ d, (keysOf p.2).Nodup ∧ ∀ q ∈ p.2, q.2.Nodup ∧ List.Sorted (· ≤ ·) q.2

instance instDecidableWFDoc (d : Doc) : Decidable (WFDoc d) :=
  inferInstanceAs (Decidable ((keysOf d).Nodup ∧
    ∀ p ∈ d, (keysOf p.2).Nodup ∧ ∀ q ∈ p.2, q.2.Nodup ∧ List.Sorted (· ≤ ·) q.2))

/-! ### JSON values and the metadata file (`Store.load` / `Store.save`) -/

/-- Parsed JSON documents, as produced by `json.loads`. -/
inductive Jvalue where
  | null
  | bool (b : Bool)
  | num (n : Int)
  | str (s : String)
  | arr (elems : List Jvalue)
  | obj (fields : List (String × Jvalue))

/-- JSON encoding of one secondary-category list (`json.dumps` shape). -/
def encodeCat2 (l : List String) : Jvalue := .arr (l.map .str)

/-- JSON encoding of one country's categories. -/
def encodeCat1 (m : Cat1Map) : Jvalue :=
  .obj (m.map (fun kv => (kv.1, encodeCat2 kv.2)))

/-- JSON encoding of a whole store document, as written by `Store.save`. -/
def encodeDoc (d : Doc) : Jvalue :=
  .obj (d.map (fun kv => (kv.1, encodeCat1 kv.2)))

/-- Reads a JSON value back as a secondary-category list, if it has the
expected shape. -/
def decodeCat2 : Jvalue → Option (List String)
  | .arr xs => xs.mapM (fun x => match x with | .str s => some s | _ => none)
  | _ => none

/-- Reads a JSON value back as one country's categories, if shaped right. -/
def decodeCat1 : Jvalue → Option Cat1Map
  | .obj fields => fields.mapM (fun kv => (decodeCat2 kv.2).map (fun l => (kv.1, l)))
  | _ => none

/-- Reads a JSON value back as a store document: the expected
country → category₁ → category₂-list structure of the metadata file. -/
def decodeDoc : Jvalue → Option Doc
  | .obj fields => fields.mapM (fun kv => (decodeCat1 kv.2).map (fun m => (kv.1, m)))
  | _ => none

/-- The state of the metadata file location: `absent` (no file), `garbage`
(present but rejected by `json.loads`), or `parsed v` (present and parsed
by `json.loads` into `v`). -/
inductive MetaFile where
  | absent
  | garbage
  | parsed (v : Jvalue)

/-- Failures of `Store.load`: a `json.loads` decode error, or the
`TypeError` raised when the default country cannot be inserted into a
non-container document. -/
inductive LoadErr where
  | jsonDecode
  | typeErr
deriving DecidableEq

/-- The default document written on first load: one country, no
categories. -/
def defaultDocJ : Jvalue := .obj [("cn", .obj [])]

/-- Python `"cn" in raw` when `raw` is a list: element equality. -/
def containsStrCn (xs : List Jvalue) : Bool :=
  xs.any (fun v => match v with | .str s => s == "cn" | _ => false)

/-- Lines 71–72 of `dr_manager.py`: `if "cn" not in raw: raw["cn"] = {}`,
with Python's duck typing.  On a dict this checks keys and appends; on a
list or string, `in` is element/substring membership and the subsequent
item assignment raises `TypeError`; on other values `in` itself raises. -/
def normalizeCn : Jvalue → Except LoadErr Jvalue
  | .obj fields =>
    if fields.any (fun kv => kv.1 = "cn") then .ok (.obj fields)
    else .ok (.obj (fields ++ [("cn", .obj [])]))
  | .arr xs => if containsStrCn xs then .ok (.arr xs) else .error .typeErr
  | .str s => if decide ("cn".data <:+: s.data) then .ok (.str s) else .error .typeErr
  | _ => .error .typeErr

/-- Embeds `Store.load` acting on the metadata file state: an absent file is
replaced by the persisted default document; unparsable content propagates
the decode error; parsed content is `"cn"`-normalized in memory only (the
file is not rewritten by `load`). -/
def loadMeta : MetaFile → Except LoadErr (Jvalue × MetaFile)
  | .absent => .ok (defaultDocJ, .parsed defaultDocJ)
  | .garbage => .error .jsonDecode
  | .parsed v => (normalizeCn v).map (fun v' => (v', .parsed v))

/-- Filesystem paths, as segment lists relative to the store root. -/
abbrev Path := List String

/-- The fixed location of the metadata document under the root. -/
def metaPath : Path := ["_meta", "categories.json"]

/-- Embeds `Store.load` reading from a root directory modelled as a map from
paths to metadata-file states. -/
def loadFromFS (rootFiles : Path → MetaFile) : Except LoadErr (Jvalue × MetaFile) :=
  loadMeta (rootFiles metaPath)

/-! ### Directories and `Store.sync_dirs` -/

/-- The set of existing directories. -/
abbrev DirSet := List Path

/-- All nonempty ancestors of a path, including the path itself. -/
def pathInits (p : Path) : List Path := p.inits.filter (fun q => !q.isEmpty)

/-- Embeds `Path.mkdir(parents=True, exist_ok=True)` (`ensure_dir`): create the
path and every missing ancestor; existing directories are untouched. -/
def mkdirParents (fs : DirSet) (p : Path) : DirSet :=
  fs ++ (pathInits p).filter (fun q => decide (q ∉ fs))

/-- One loop iteration of `Store.sync_dirs`: if the triple's directory
does not exist, create it and record it in the returned list. -/
def syncStep (st : DirSet × List Path) (p : Path) : DirSet × List Path :=
  if p ∈ st.1 then st else (mkdirParents st.1 p, st.2 ++ [p])

/-- The country list iterated by `Store.sync_dirs`: the one requested
country, or all countries. -/
def syncCountries (d : Doc) (copt : Option String) : List String :=
  match copt with
  | some c => [c]
  | none => countries d

/-- The `(country, cat1, cat2)` directory paths enumerated by
`Store.sync_dirs`, in its (sorted) iteration order. -/
def triplePaths (d : Doc) (copt : Option String) : List Path :=
  (syncCountries d copt).flatMap (fun c =>
    (cat1_list d c).flatMap (fun c1 =>
      (cat2_list d c c1).map (fun c2 => [c, c1, c2])))

/-- Embeds `Store.sync_dirs`: create every missing triple directory, returning
the new directory set and the list of newly created triple paths. -/
def sync_dirs (fs : DirSet) (d : Doc) (copt : Option String) : DirSet × List Path :=
  (triplePaths d copt).foldl syncStep (fs, [])

/-! ### The YAML renderer and `cmd_gen` -/

/-- Embeds `str.splitlines` for newline-only text: like splitting on `'\n'`, but
with no empty trailing piece when the text ends in a newline.  (Other line
terminators are out of scope; the repository only produces `'\n'`.) -/
def splitlinesPy (l : List Char) : List (List Char) :=
  let ss := List.splitOn '\n' l
  if l.getLast? == some '\n' then ss.dropLast else ss

/-- Embeds `"\n".join`-style concatenation with a separator. -/
def joinWith (sep : List Char) : List (List Char) → List Char
  | [] => []
  | [x] => x
  | x :: y :: xs => x ++ sep ++ joinWith sep (y :: xs)

/-- Embeds `" " * indent`. -/
def padOf (n : Nat) : List Char := List.replicate n ' '

/-- Embeds `yaml_escape_multiline` from `dr_manager.py`: indent every line,
preserving line breaks. -/
def yaml_escape_multiline (text : List Char) (indent : Nat) : List Char :=
  joinWith ['\n'] ((splitlinesPy text).map (fun ln => padOf indent ++ ln))

/-- Embeds `name.replace('"', '\\"')`. -/
def escapeQuotes (l : List Char) : List Char :=
  l.flatMap (fun c => if c == '"' then ['\\', '"'] else [c])

/-- Python `str.rstrip()` (no argument): drop trailing whitespace. -/
def rstripPy (l : List Char) : List Char := dropEndWhile pyWs l

/-- Embeds `render_yaml_template` from `dr_manager.py`.  The generation timestamp
(`now_iso()`) is passed in as `genTs` to keep the function pure. -/
def render_yaml_template (genTs : List Char) (product_name description : String)
    (c c1 c2 : String) : List Char :=
  let headerLines : List (List Char) := [
    "# data-records.net product stub".data,
    "# generated_at: ".data ++ genTs,
    "# path: ".data ++ c.data ++ ['/'] ++ c1.data ++ ['/'] ++ c2.data ++ ['/'] ++
      slugify product_name.data ++ ".yaml".data,
    [],
    "product:".data,
    "  name: \"".data ++ escapeQuotes product_name.data ++ ['"'],
    "  description: |".data,
    yaml_escape_multiline description.data 4,
    [] ]
  rstripPy (joinWith ['\n'] headerLines) ++ ['\n']

/-- File contents under the root, keyed by path. -/
abbrev FileMap := List (Path × List Char)

/-- The observable state acted on by the CLI commands: the in-memory
taxonomy document, the existing directories and the generated files. -/
structure SysState where
  doc : Doc
  dirs : DirSet
  files : FileMap

/-- The distinct failures raised by `cmd_gen` (`SystemExit` messages in
the source; the spec's TaxonomyError for the three missing-level cases and
ConflictError for an existing target). -/
inductive GenErr where
  | countryMissing (country : String)
  | cat1Missing (country cat1 : String)
  | cat2Missing (country cat1 cat2 : String)
  | conflict (path : Path)
deriving DecidableEq

/-- The generated filename `slugify_filename(name) + ".yaml"`. -/
def genFileName (name : String) : String :=
  String.mk (slugify name.data ++ ".yaml".data)

/-- Embeds `Store.target_dir`. -/
def target_dir (c c1 c2 : String) : Path := [c, c1, c2]

/-- Embeds `cmd_gen` from `dr_manager.py`: strict taxonomy membership checks, a
sync of the target country, filename computation, the conflict check, and
the final write.  The returned state reflects all side effects performed
before a failure. -/
def cmd_gen (s : SysState) (c c1 c2 name desc : String) (overwrite : Bool)
    (genTs : List Char) : SysState × Except GenErr Path :=
  if !hasKey s.doc c then (s, .error (.countryMissing c))
  else if !hasKey ((alook s.doc c).getD []) c1 then (s, .error (.cat1Missing c c1))
  else if !((alook ((alook s.doc c).getD []) c1).getD []).contains c2 then
    (s, .error (.cat2Missing c c1 c2))
  else
    let dirs1 := (sync_dirs s.dirs s.doc (some c)).1
    let tdir := target_dir c c1 c2
    let dirs2 := mkdirParents dirs1 tdir
    let out := tdir ++ [genFileName name]
    if (alook s.files out).isSome && !overwrite then
      (⟨s.doc, dirs2, s.files⟩, .error (.conflict out))
    else
      (⟨s.doc, dirs2, aset s.files out (render_yaml_template genTs name desc c c1 c2)⟩,
       .ok out)

/-! ### The console engine (`engine_v1.py`) -/

/-- Embeds `ASSETS_DOMAIN` from `engine_v1.py`. -/
def ASSETS_DOMAIN : String := "assets.data-records.net"

/-- An asset descriptor as accepted by `AssetSchema` (all three fields are
strings; pydantic checks only what `assetViolations` records). -/
structure AssetIn where
  role : String
  hash_sha256 : String
  uri : String
deriving DecidableEq

/-- The individual constraint violations reported by the pydantic schema
validation (`ValidationError` items). -/
inductive Violation where
  | hashLen
  | uriDomain
  | recordId
  | timestampBad
deriving DecidableEq

/-- The `validate_uri` whitelist: the URI must start with
`https://{ASSETS_DOMAIN}/`. -/
def assetUriOk (u : String) : Bool :=
  ("https://" ++ ASSETS_DOMAIN ++ "/").data.isPrefixOf u.data

/-- Constraint violations of one asset under `AssetSchema`: the hash field
carries `min_length=64, max_length=64`, and the URI must pass
`validate_uri`.  The `role` field has no constraint beyond being a
string. -/
def assetViolations (a : AssetIn) : List Violation :=
  (if a.hash_sha256.data.length < 64 ∨ 64 < a.hash_sha256.data.length
   then [.hashLen] else []) ++
  (if assetUriOk a.uri then [] else [.uriDomain])

/-- The `record_id` regex `^[A-Z]{2}-[A-Z]{3}-[A-Z]{3}-\d{3}$`. -/
def recordIdOk (s : String) : Bool :=
  match s.data with
  | [a, b, s1, c, d, e, s2, f, g, h, s3, i, j, k] =>
    a.isUpper && b.isUpper && s1 == '-' && c.isUpper && d.isUpper && e.isUpper &&
    s2 == '-' && f.isUpper && g.isUpper && h.isUpper && s3 == '-' &&
    i.isDigit && j.isDigit && k.isDigit
  | _ => false

/-- Embeds `v.replace("Z", "+00:00")`. -/
def replaceZ (l : List Char) : List Char :=
  l.flatMap (fun c => if c == 'Z' then "+00:00".data else [c])

/-- Both characters are digits. -/
def twoDigits (a b : Char) : Bool := a.isDigit && b.isDigit

/-- Numeric value of a two-digit group. -/
def digitVal2 (a b : Char) : Nat := (a.toNat - 48) * 10 + (b.toNat - 48)

/-- A trailing UTC-offset group `±HH:MM` (or nothing). -/
def offsetOk : List Char → Bool
  | [] => true
  | [sgn, h1, h2, ':', m1, m2] =>
    (sgn == '+' || sgn == '-') && twoDigits h1 h2 && twoDigits m1 m2 &&
    decide (digitVal2 h1 h2 < 24) && decide (digitVal2 m1 m2 < 60)
  | _ => false

/-- An optional time-of-day part `*HH:MM:SS` followed by an optional
offset (the separator may be any character, as in `fromisoformat`). -/
def timePartOk : List Char → Bool
  | [] => true
  | _ :: h1 :: h2 :: ':' :: m1 :: m2 :: ':' :: s1 :: s2 :: rest =>
    twoDigits h1 h2 && twoDigits m1 m2 && twoDigits s1 s2 &&
    decide (digitVal2 h1 h2 < 24) && decide (digitVal2 m1 m2 < 60) &&
    decide (digitVal2 s1 s2 < 60) && offsetOk rest
  | _ => false

/-- Modelled from the spec: `datetime.fromisoformat` (standard-library
code, not part of this repository), restricted to the
`YYYY-MM-DD[*HH:MM:SS[±HH:MM]]` shapes the system produces and validates;
general ISO-8601 and exact calendar arithmetic are out of scope. -/
def isoDateTimeOk : List Char → Bool
  | y1 :: y2 :: y3 :: y4 :: '-' :: m1 :: m2 :: '-' :: d1 :: d2 :: rest =>
    y1.isDigit && y2.isDigit && y3.isDigit && y4.isDigit &&
    twoDigits m1 m2 && twoDigits d1 d2 &&
    decide (1 ≤ digitVal2 m1 m2) && decide (digitVal2 m1 m2 ≤ 12) &&
    decide (1 ≤ digitVal2 d1 d2) && decide (digitVal2 d1 d2 ≤ 31) &&
    timePartOk rest
  | _ => false

/-- The `validate_timestamp` check of `RecordSchema`: replace a literal
`"Z"` by `"+00:00"` and require `fromisoformat` to accept the result. -/
def timestampOk (s : String) : Bool := isoDateTimeOk (replaceZ s.data)

/-- A record payload as passed to `RecordSchema` (licensing and authority
fields carry fixed defaults in the schema and impose no constraint). -/
structure RecordIn where
  record_id : String
  timestamp : String
  subject : List (String × String)
  assets : List AssetIn
deriving DecidableEq

/-- All violations collected by `RecordSchema(**data)`; pydantic gathers
the failures of every field into one `ValidationError`. -/
def recordViolations (r : RecordIn) : List Violation :=
  (if recordIdOk r.record_id then [] else [.recordId]) ++
  (if timestampOk r.timestamp then [] else [.timestampBad]) ++
  r.assets.flatMap assetViolations

/-- Modelled from the spec: pydantic's `record.json(indent=2)` rendering
(library code, not part of this repository).  Only the presence of the
validated fields in the output is relied upon, not the exact layout. -/
def recordJsonDump (r : RecordIn) : List Char :=
  "\x7b\n  \"record_id\": \"".data ++ r.record_id.data ++
  "\",\n  \"timestamp\": \"".data ++ r.timestamp.data ++
  "\",\n  \"subject\": \x7b".data ++
  joinWith ", ".data (r.subject.map (fun kv =>
    "\"".data ++ kv.1.data ++ "\": \"".data ++ kv.2.data ++ "\"".data)) ++
  "\x7d,\n  \"assets\": [".data ++
  joinWith ", ".data (r.assets.map (fun a =>
    "\x7b\"role\": \"".data ++ a.role.data ++ "\", \"hash_sha256\": \"".data ++
    a.hash_sha256.data ++ "\", \"uri\": \"".data ++ a.uri.data ++ "\"\x7d".data)) ++
  "],\n  \"license\": \x7b\"data\": \"CC0-1.0\"\x7d,\n  \"rights_owner\": \"Data-Records Asset Custodian\"\n\x7d".data

/-- The filename computed by `generate_record_yaml`:
`f"{brand}-{name}.yaml"` filtered to alphanumerics, hyphen and underscore
(which drops the first `.yaml`'s dot), stripped, plus `".yaml"`. -/
def engineFilename (subject : List (String × String)) : String :=
  let brand := (alook subject "brand").getD "unknown"
  let pname := (alook subject "name").getD "unknown"
  let raw := (brand ++ "-" ++ pname ++ ".yaml").data
  String.mk (stripBoth pyWs (raw.filter (fun ch => ch.isAlphanum || ch == '-' || ch == '_'))
    ++ ".yaml".data)

/-- The text written by `generate_record_yaml`: two header comment lines
followed by the serialized record. -/
def engineContent (r : RecordIn) : List Char :=
  "# Data Records Canonical Entry\n# ID: ".data ++ r.record_id.data ++ "\n".data ++
  recordJsonDump r

/-- Embeds `generate_record_yaml` from `engine_v1.py`: validate against
`RecordSchema`, compute the filename, create the output directory if
missing, and write the file — with no conflict check and no overwrite
flag. -/
def generate_record_yaml (dirs : DirSet) (files : FileMap) (r : RecordIn)
    (output_dir : Path) : DirSet × FileMap × Except (List Violation) Path :=
  match recordViolations r with
  | [] =>
    let fname := engineFilename r.subject
    let dirs' := if output_dir ∈ dirs then dirs else mkdirParents dirs output_dir
    let p := output_dir ++ [fname]
    (dirs', aset files p (engineContent r), .ok p)
  | v :: vs => (dirs, files, .error (v :: vs))

/-- A hexadecimal digit. -/
def hexDigit (c : Char) : Bool :=
  c.isDigit || ('a' ≤ c && c ≤ 'f') || ('A' ≤ c && c ≤ 'F')

/-- The spec's per-asset requirement, stated from its words for
comparison with the implementation: a non-empty role, a 64-character
hexadecimal hash, and a URI on the asset domain. -/
def specAssetOk (a : AssetIn) : Bool :=
  !(a.role == "") && a.hash_sha256.data.length == 64 &&
  a.hash_sha256.data.all hexDigit && assetUriOk a.uri

deriving instance DecidableEq for Except

/-! ### Concrete scenarios examined by the verification -/

/-- The taxonomy built in the end-to-end scenario: empty root (so `load`
creates the default document), then add country `"cn"`, category₁
`"food"`, category₂ `"snacks"`. -/
def spicyDoc : Doc :=
  add_cat2 (add_cat1 (add_country (normalizeDocCn []) "cn") "cn" "food") "cn" "food" "snacks"

/-- The system state after the adds and a full sync, with no files yet. -/
def spicyState : SysState := ⟨spicyDoc, (sync_dirs [] spicyDoc none).1, []⟩

/-- The end-to-end generation request for `"Spicy Chips!"` with
description `"line1\nline2"`. -/
def spicyGen (ts : List Char) : SysState × Except GenErr Path :=
  cmd_gen spicyState "cn" "food" "snacks" "Spicy Chips!" "line1\nline2" false ts

/-- The path the scenario actually writes to. -/
def spicyPath : Path := ["cn", "food", "snacks", "Spicy-Chips!.yaml"]

/-- A concrete record payload accepted by `RecordSchema`. -/
def cexRecord : RecordIn :=
  ⟨"AB-CDE-FGH-123", "2024-01-01T00:00:00Z", [("brand", "b"), ("name", "n")], []⟩

/-- The engine output path for `cexRecord` under `cn/food/snacks`. -/
def cexEnginePath : Path := ["cn", "food", "snacks", "b-nyaml.yaml"]

/-- A state whose target file for the product `"x"` already exists. -/
def conflictState : SysState :=
  ⟨[("cn", [("food", ["snacks"])])], [],
   [(["cn", "food", "snacks", "x.yaml"], ("OLD" : String).data)]⟩

/-- The same taxonomy with no generated files yet. -/
def freshState : SysState := ⟨[("cn", [("food", ["snacks"])])], [], []⟩

/-- No two adjacent separator characters. -/
def noTwoSeps (l : List Char) : Prop :=
  l.Chain' (fun a b => ¬(sepChar a = true ∧ sepChar b = true))

/-- Executable check for `noTwoSeps`. -/
def noTwoSepsB : List Char → Bool
  | [] => true
  | [_] => true
  | a :: b :: r => !(sepChar a && sepChar b) && noTwoSepsB (b :: r)

/-- The shape invariant of every `slugify` result: nonempty, free of
whitespace, reserved and C0 control characters, no separator runs, and no
separator or dot at either end. -/
def goodSlug (l : List Char) : Prop :=
  l ≠ [] ∧
  (∀ c ∈ l, pyWs c = false ∧ illegalChar c = false) ∧
  noTwoSeps l ∧
  l.head?.all (fun c => !edgeChar c) = true ∧
  l.getLast?.all (fun c => !edgeChar c) = true

/-! ## Lemmas about the path sanitizer -/

theorem dropWhile_eq_self_of_head {p : Char → Bool} {l : List Char}
    (h : l.head?.all (fun c => !p c) = true) : l.dropWhile p = l := by
  cases l with
  | nil => rfl
  | cons c r =>
    simp only [List.head?_cons, Option.all_some, Bool.not_eq_true'] at h
    simp [List.dropWhile_cons, h]

theorem head_dropWhile_not {p : Char → Bool} :
    ∀ {l : List Char} {c : Char}, (l.dropWhile p).head? = some c → p c = false := by
  intro l
  induction l with
  | nil => intro c h; simp [List.dropWhile_nil] at h
  | cons a r ih =>
    intro c h
    by_cases hp : p a
    · rw [List.dropWhile_cons, if_pos hp] at h
      exact ih h
    · rw [List.dropWhile_cons, if_neg hp] at h
      simp only [List.head?_cons, Option.some.injEq] at h
      subst h
      exact Bool.not_eq_true _ ▸ (by simpa using hp)

theorem dropWhile_suffix_self (p : Char → Bool) (l : List Char) :
    l.dropWhile p <:+ l :=
  ⟨l.takeWhile p, List.takeWhile_append_dropWhile p l⟩

theorem dropEndWhile_isPref (p : Char → Bool) (l : List Char) :
    dropEndWhile p l <+: l := by
  have h := dropWhile_suffix_self p l.reverse
  rw [← List.reverse_suffix]
  simpa [dropEndWhile] using h

theorem stripBoth_within (p : Char → Bool) (l : List Char) :
    stripBoth p l <:+: l :=
  ((dropEndWhile_isPref p (l.dropWhile p)).isInfix).trans
    (dropWhile_suffix_self p l).isInfix

theorem getLast_dropEndWhile_not {p : Char → Bool} {l : List Char} {c : Char}
    (h : (dropEndWhile p l).getLast? = some c) : p c = false := by
  rw [dropEndWhile, List.getLast?_reverse] at h
  exact head_dropWhile_not h

theorem head_stripBoth_not {p : Char → Bool} {l : List Char} {c : Char}
    (h : (stripBoth p l).head? = some c) : p c = false := by
  rcases dropEndWhile_isPref p (l.dropWhile p) with ⟨t, ht⟩
  rw [stripBoth] at h
  have hne : dropEndWhile p (l.dropWhile p) ≠ [] := by
    intro hnil
    rw [hnil] at h
    simp at h
  have : (l.dropWhile p).head? = some c := by
    rw [← ht]
    cases hd : dropEndWhile p (l.dropWhile p) with
    | nil => exact absurd hd hne
    | cons a r =>
      rw [hd] at h
      simp only [List.head?_cons, Option.some.injEq] at h
      subst h
      simp [List.head?_cons]
  exact head_dropWhile_not this

theorem getLast_stripBoth_not {p : Char → Bool} {l : List Char} {c : Char}
    (h : (stripBoth p l).getLast? = some c) : p c = false :=
  getLast_dropEndWhile_not h

theorem stripBoth_eq_self {p : Char → Bool} {l : List Char}
    (h1 : l.head?.all (fun c => !p c) = true)
    (h2 : l.getLast?.all (fun c => !p c) = true) : stripBoth p l = l := by
  rw [stripBoth, dropWhile_eq_self_of_head h1, dropEndWhile,
    dropWhile_eq_self_of_head (by rwa [List.head?_reverse]), List.reverse_reverse]

theorem mem_cwAux {sw : Bool} {l : List Char} {c : Char} :
    c ∈ cwAux sw l → c = '-' ∨ (c ∈ l ∧ pyWs c = false) := by
  induction l generalizing sw with
  | nil => intro h; simp [cwAux] at h
  | cons a r ih =>
    intro h
    by_cases hw : pyWs a
    · rw [cwAux, if_pos hw] at h
      by_cases hsw : sw
      · subst hsw
        rcases ih (by simpa using h) with h' | h'
        · exact Or.inl h'
        · exact Or.inr ⟨List.mem_cons_of_mem _ h'.1, h'.2⟩
      · simp only [Bool.not_eq_true] at hsw
        subst hsw
        rw [if_neg (by simp)] at h
        simp only [List.mem_cons] at h
        rcases h with h | h
        · exact Or.inl h
        · rcases ih h with h' | h'
          · exact Or.inl h'
          · exact Or.inr ⟨List.mem_cons_of_mem _ h'.1, h'.2⟩
    · rw [cwAux, if_neg hw] at h
      simp only [List.mem_cons] at h
      rcases h with h | h
      · subst h
        exact Or.inr ⟨List.mem_cons_self _ _, by simpa using hw⟩
      · rcases ih h with h' | h'
        · exact Or.inl h'
        · exact Or.inr ⟨List.mem_cons_of_mem _ h'.1, h'.2⟩

theorem ws_of_mem_cwAux {sw : Bool} {l : List Char} {c : Char}
    (h : c ∈ cwAux sw l) : pyWs c = false := by
  rcases mem_cwAux h with h' | h'
  · subst h'; decide
  · exact h'.2

theorem cwAux_eq_self {l : List Char} (h : ∀ c ∈ l, pyWs c = false) :
    cwAux false l = l := by
  induction l with
  | nil => rfl
  | cons a r ih =>
    rw [cwAux, if_neg (by simp [h a (List.mem_cons_self _ _)])]
    rw [ih (fun c hc => h c (List.mem_cons_of_mem _ hc))]

theorem mem_csAux {sw : Bool} {l : List Char} {c : Char} :
    c ∈ csAux sw l → c = '-' ∨ c ∈ l := by
  induction l generalizing sw with
  | nil => intro h; cases sw <;> simp [csAux] at h
  | cons a r ih =>
    intro h
    cases sw with
    | true =>
      rw [csAux] at h
      by_cases hs : sepChar a
      · rw [if_pos hs] at h
        rcases ih h with h' | h'
        · exact Or.inl h'
        · exact Or.inr (List.mem_cons_of_mem _ h')
      · rw [if_neg hs] at h
        simp only [List.mem_cons] at h
        rcases h with h | h
        · exact Or.inr (h ▸ List.mem_cons_self _ _)
        · rcases ih h with h' | h'
          · exact Or.inl h'
          · exact Or.inr (List.mem_cons_of_mem _ h')
    | false =>
      cases r with
      | nil =>
        rw [csAux] at h
        simp only [List.mem_singleton] at h
        exact Or.inr (h ▸ List.mem_cons_self _ _)
      | cons d r' =>
        rw [csAux] at h
        by_cases hs : sepChar a
        · rw [if_pos hs] at h
          by_cases hd : sepChar d
          · rw [if_pos hd] at h
            simp only [List.mem_cons] at h
            rcases h with h | h
            · exact Or.inl h
            · rcases ih h with h' | h'
              · exact Or.inl h'
              · exact Or.inr (List.mem_cons_of_mem _ h')
          · rw [if_neg hd] at h
            simp only [List.mem_cons] at h
            rcases h with h | h
            · exact Or.inr (h ▸ List.mem_cons_self _ _)
            · rcases ih h with h' | h'
              · exact Or.inl h'
              · exact Or.inr (List.mem_cons_of_mem _ h')
        · rw [if_neg hs] at h
          simp only [List.mem_cons] at h
          rcases h with h | h
          · exact Or.inr (h ▸ List.mem_cons_self _ _)
          · rcases ih h with h' | h'
            · exact Or.inl h'
            · exact Or.inr (List.mem_cons_of_mem _ h')

theorem csAux_true_head {l : List Char} :
    (csAux true l).head? = none ∨
      ∃ c, (csAux true l).head? = some c ∧ sepChar c = false := by
  induction l with
  | nil => exact Or.inl rfl
  | cons a r ih =>
    rw [csAux]
    by_cases hs : sepChar a
    · rw [if_pos hs]; exact ih
    · rw [if_neg hs]
      exact Or.inr ⟨a, rfl, by simpa using hs⟩

theorem csAux_false_head {l : List Char} :
    (csAux false l).head? = l.head? ∨
      ((csAux false l).head? = some '-' ∧
        ∃ c, l.head? = some c ∧ sepChar c = true) := by
  cases l with
  | nil => exact Or.inl rfl
  | cons a r =>
    cases r with
    | nil => exact Or.inl rfl
    | cons d r' =>
      rw [csAux]
      by_cases hs : sepChar a
      · rw [if_pos hs]
        by_cases hd : sepChar d
        · rw [if_pos hd]; exact Or.inr ⟨rfl, a, rfl, hs⟩
        · rw [if_neg hd]; exact Or.inl rfl
      · rw [if_neg hs]; exact Or.inl rfl

theorem chain'_csAux (l : List Char) :
    ∀ sw, noTwoSeps (csAux sw l) := by
  induction l with
  | nil => intro sw; cases sw <;> exact List.chain'_nil
  | cons a r ih =>
    intro sw
    cases sw with
    | true =>
      rw [csAux]
      by_cases hs : sepChar a
      · rw [if_pos hs]; exact ih true
      · rw [if_neg hs]
        rw [noTwoSeps, List.chain'_cons']
        refine ⟨?_, ih false⟩
        intro y _
        intro hcontra
        exact hs hcontra.1
    | false =>
      cases r with
      | nil =>
        rw [csAux]
        exact List.chain'_singleton a
      | cons d r' =>
        rw [csAux]
        by_cases hs : sepChar a
        · rw [if_pos hs]
          by_cases hd : sepChar d
          · rw [if_pos hd]
            rw [noTwoSeps, List.chain'_cons']
            refine ⟨?_, ih true⟩
            intro y hy
            rcases csAux_true_head (l := d :: r') with hh | ⟨c, hc, hcs⟩
            · rw [hh] at hy; cases hy
            · rw [hc] at hy
              simp only [Option.mem_def, Option.some.injEq] at hy
              subst hy
              intro hcontra
              rw [hcs] at hcontra
              exact Bool.false_ne_true hcontra.2
          · rw [if_neg hd]
            rw [noTwoSeps, List.chain'_cons']
            refine ⟨?_, ih false⟩
            intro y hy
            rcases csAux_false_head (l := d :: r') with hh | ⟨hh, c, hc, hcs⟩
            · rw [hh] at hy
              simp only [List.head?_cons, Option.mem_def, Option.some.injEq] at hy
              subst hy
              intro hcontra
              exact hd hcontra.2
            · simp only [List.head?_cons, Option.some.injEq] at hc
              subst hc
              exact absurd hcs (by simpa using hd)
        · rw [if_neg hs]
          rw [noTwoSeps, List.chain'_cons']
          refine ⟨?_, ih false⟩
          intro y _
          intro hcontra
          exact hs hcontra.1

theorem csAux_eq_self {l : List Char} (h : noTwoSeps l) : csAux false l = l := by
  induction l with
  | nil => rfl
  | cons a r ih =>
    cases r with
    | nil => rfl
    | cons d r' =>
      rw [noTwoSeps, List.chain'_cons] at h
      have ihr := ih h.2
      rw [csAux]
      by_cases hs : sepChar a
      · have hd : sepChar d = false := by
          by_contra hd'
          exact h.1 ⟨hs, by simpa using hd'⟩
        rw [if_pos hs, if_neg (by simp [hd]), ihr]
      · rw [if_neg hs, ihr]

theorem all_head_not {p : Char → Bool} {l : List Char}
    (h : ∀ c ∈ l, p c = false) : l.head?.all (fun c => !p c) = true := by
  cases l with
  | nil => rfl
  | cons a r => simp [h a (List.mem_cons_self _ _)]

theorem all_getLast_not {p : Char → Bool} {l : List Char}
    (h : ∀ c ∈ l, p c = false) : l.getLast?.all (fun c => !p c) = true := by
  rw [← List.head?_reverse]
  exact all_head_not (fun c hc => h c (List.mem_reverse.mp hc))

theorem noTwoSeps_of_check : ∀ {l : List Char}, noTwoSepsB l = true → noTwoSeps l := by
  intro l
  induction l with
  | nil => intro _; exact List.chain'_nil
  | cons a r ih =>
    cases r with
    | nil => intro _; exact List.chain'_singleton a
    | cons b r' =>
      intro h
      rw [noTwoSepsB, Bool.and_eq_true] at h
      rw [noTwoSeps, List.chain'_cons]
      refine ⟨?_, ih h.2⟩
      intro hcontra
      rw [hcontra.1, hcontra.2] at h
      simp at h

theorem fallback_goodSlug : goodSlug fallbackName :=
  ⟨by decide, by decide, noTwoSeps_of_check (by decide), by decide, by decide⟩

theorem goodSlug_slugify (x : List Char) : goodSlug (slugify x) := by
  rw [slugify]
  by_cases hte : (stripBoth pyWs x).isEmpty
  · rw [if_pos hte]; exact fallback_goodSlug
  · rw [if_neg hte]
    set t := stripBoth pyWs x with hts
    set w := collapseSep ((collapseWs t).filter fun c => !illegalChar c) with hw
    set u := stripBoth edgeChar w with hus
    by_cases hue : u.isEmpty
    · rw [if_pos hue]; exact fallback_goodSlug
    · rw [if_neg hue]
      have hmem : ∀ c ∈ u, pyWs c = false ∧ illegalChar c = false := by
        intro c hc
        have hc2 : c ∈ w := (stripBoth_within _ _).subset hc
        rcases mem_csAux hc2 with rfl | hc3
        · exact ⟨by decide, by decide⟩
        · have hfilter := List.mem_filter.mp hc3
          exact ⟨ws_of_mem_cwAux hfilter.1, by simpa using hfilter.2⟩
      refine ⟨by simpa [List.isEmpty_iff] using hue, hmem, ?_, ?_, ?_⟩
      · exact List.Chain'.infix (chain'_csAux _ false) (stripBoth_within _ _)
      · cases hh : u.head? with
        | none => rfl
        | some c => simp [head_stripBoth_not hh]
      · cases hh : u.getLast? with
        | none => rfl
        | some c => simp [getLast_stripBoth_not hh]

theorem slugify_eq_self {l : List Char} (h : goodSlug l) : slugify l = l := by
  obtain ⟨hne, hchars, hchain, hhead, hlast⟩ := h
  have hws : ∀ c ∈ l, pyWs c = false := fun c hc => (hchars c hc).1
  have hil : ∀ c ∈ l, illegalChar c = false := fun c hc => (hchars c hc).2
  have h1 : stripBoth pyWs l = l :=
    stripBoth_eq_self (all_head_not hws) (all_getLast_not hws)
  have h2 : collapseWs l = l := cwAux_eq_self hws
  have h3 : (l.filter fun c => !illegalChar c) = l :=
    List.filter_eq_self.mpr (fun c hc => by simp [hil c hc])
  have h4 : collapseSep l = l := csAux_eq_self hchain
  have h5 : stripBoth edgeChar l = l := stripBoth_eq_self hhead hlast
  have hne' : l.isEmpty = false := by
    cases l with
    | nil => exact absurd rfl hne
    | cons a r => rfl
  rw [slugify]
  rw [h1, hne']
  simp only [Bool.false_eq_true, if_false]
  rw [h2, h3, h4, h5, hne']
  simp

/-! ## Lemmas about association lists -/

theorem hasKey_eq_isSome {κ α : Type} [DecidableEq κ] (m : List (κ × α)) (k : κ) :
    hasKey m k = (alook m k).isSome := by
  induction m with
  | nil => rfl
  | cons kv r ih =>
    obtain ⟨k', v⟩ := kv
    by_cases h : k' = k
    · simp [hasKey, alook, h]
    · simp [hasKey, alook, h]
      rw [← ih, hasKey]

theorem hasKey_iff_mem_keys {κ α : Type} [DecidableEq κ] (m : List (κ × α)) (k : κ) :
    hasKey m k = true ↔ k ∈ keysOf m := by
  rw [hasKey, List.any_eq_true, keysOf]
  constructor
  · rintro ⟨kv, hm, hk⟩
    simp only [decide_eq_true_eq] at hk
    exact hk ▸ List.mem_map_of_mem _ hm
  · intro hk
    rcases List.mem_map.mp hk with ⟨kv, hm, hk'⟩
    exact ⟨kv, hm, by simp [hk']⟩

theorem alook_mem {κ α : Type} [DecidableEq κ] {m : List (κ × α)} {k : κ} {v : α} :
    alook m k = some v → (k, v) ∈ m := by
  induction m with
  | nil => intro h; simp [alook] at h
  | cons kv r ih =>
    obtain ⟨k', v'⟩ := kv
    intro h
    rw [alook] at h
    by_cases hk : k' = k
    · rw [if_pos hk] at h
      simp only [Option.some.injEq] at h
      subst hk; subst h
      exact List.mem_cons_self _ _
    · rw [if_neg hk] at h
      exact List.mem_cons_of_mem _ (ih h)

theorem alook_append_left {κ α : Type} [DecidableEq κ] {m₁ : List (κ × α)} {k : κ}
    (m₂ : List (κ × α)) (h : (alook m₁ k).isSome = true) :
    alook (m₁ ++ m₂) k = alook m₁ k := by
  induction m₁ with
  | nil => simp [alook] at h
  | cons kv r ih =>
    obtain ⟨k', v⟩ := kv
    by_cases hk : k' = k
    · simp [alook, hk]
    · rw [alook] at h
      rw [if_neg hk] at h
      simp only [List.cons_append, alook, if_neg hk]
      exact ih h

theorem alook_append_right {κ α : Type} [DecidableEq κ] {m₁ : List (κ × α)} {k : κ}
    (m₂ : List (κ × α)) (h : alook m₁ k = none) :
    alook (m₁ ++ m₂) k = alook m₂ k := by
  induction m₁ with
  | nil => rfl
  | cons kv r ih =>
    obtain ⟨k', v⟩ := kv
    rw [alook] at h
    by_cases hk : k' = k
    · rw [if_pos hk] at h; cases h
    · rw [if_neg hk] at h
      simp only [List.cons_append, alook, if_neg hk]
      exact ih h

theorem alook_amodify_self {κ α : Type} [DecidableEq κ] (m : List (κ × α)) (k : κ)
    (f : α → α) : alook (amodify m k f) k = (alook m k).map f := by
  induction m with
  | nil => rfl
  | cons kv r ih =>
    obtain ⟨k', v⟩ := kv
    by_cases hk : k' = k
    · simp [amodify, alook, hk]
    · simp [amodify, alook, hk, ih]

theorem alook_amodify_other {κ α : Type} [DecidableEq κ] (m : List (κ × α)) (k k' : κ)
    (f : α → α) (h : k' ≠ k) : alook (amodify m k f) k' = alook m k' := by
  induction m with
  | nil => rfl
  | cons kv r ih =>
    obtain ⟨k'', v⟩ := kv
    rw [amodify]
    by_cases hk : k'' = k
    · subst hk
      have hne : ¬k'' = k' := fun he => h he.symm
      rw [if_pos rfl, alook, if_neg hne, alook, if_neg hne]
    · rw [if_neg hk, alook, alook]
      by_cases hk' : k'' = k'
      · rw [if_pos hk', if_pos hk']
      · rw [if_neg hk', if_neg hk', ih]

theorem keysOf_amodify {κ α : Type} [DecidableEq κ] (m : List (κ × α)) (k : κ)
    (f : α → α) : keysOf (amodify m k f) = keysOf m := by
  induction m with
  | nil => rfl
  | cons kv r ih =>
    obtain ⟨k', v⟩ := kv
    rw [amodify]
    by_cases hk : k' = k
    · subst hk
      rw [if_pos rfl]
      rfl
    · rw [if_neg hk]
      show k' :: keysOf (amodify r k f) = k' :: keysOf r
      rw [ih]

theorem mem_amodify {κ α : Type} [DecidableEq κ] {m : List (κ × α)} {k : κ}
    {f : α → α} {p : κ × α} :
    p ∈ amodify m k f → p ∈ m ∨ ∃ v, (k, v) ∈ m ∧ p = (k, f v) := by
  induction m with
  | nil => intro h; simp [amodify] at h
  | cons kv r ih =>
    obtain ⟨k', v'⟩ := kv
    intro h
    rw [amodify] at h
    by_cases hk : k' = k
    · rw [if_pos hk] at h
      rcases List.mem_cons.mp h with h | h
      · exact Or.inr ⟨v', hk ▸ List.mem_cons_self _ _, h⟩
      · exact Or.inl (List.mem_cons_of_mem _ h)
    · rw [if_neg hk] at h
      rcases List.mem_cons.mp h with h | h
      · exact Or.inl (h ▸ List.mem_cons_self _ _)
      · rcases ih h with h' | ⟨v, hv, hp⟩
        · exact Or.inl (List.mem_cons_of_mem _ h')
        · exact Or.inr ⟨v, List.mem_cons_of_mem _ hv, hp⟩

theorem alook_aset_self {κ α : Type} [DecidableEq κ] (m : List (κ × α)) (k : κ)
    (v : α) : alook (aset m k v) k = some v := by
  induction m with
  | nil => simp [aset, alook]
  | cons kv r ih =>
    obtain ⟨k', v'⟩ := kv
    by_cases hk : k' = k
    · simp [aset, alook, hk]
    · simp [aset, alook, hk, ih]

/-! ## JSON encode/decode lemmas -/

theorem decodeCat2_encodeCat2 (l : List String) : decodeCat2 (encodeCat2 l) = some l := by
  induction l with
  | nil => rfl
  | cons s r ih =>
    rw [encodeCat2, decodeCat2] at ih ⊢
    simp only [List.map_cons, List.mapM_cons, ih]
    rfl

theorem decodeCat1_encodeCat1 (m : Cat1Map) : decodeCat1 (encodeCat1 m) = some m := by
  induction m with
  | nil => rfl
  | cons kv r ih =>
    rw [encodeCat1, decodeCat1] at ih ⊢
    simp only [List.map_cons, List.mapM_cons, decodeCat2_encodeCat2, ih]
    rfl

theorem decodeDoc_encodeDoc (d : Doc) : decodeDoc (encodeDoc d) = some d := by
  induction d with
  | nil => rfl
  | cons kv r ih =>
    rw [encodeDoc, decodeDoc] at ih ⊢
    simp only [List.map_cons, List.mapM_cons, decodeCat1_encodeCat1, ih]
    rfl

theorem decodeDoc_encode_append_cn (d : Doc) :
    decodeDoc (.obj ((d.map (fun kv => (kv.1, encodeCat1 kv.2))) ++ [("cn", .obj [])])) =
      some (d ++ [("cn", [])]) := by
  rw [decodeDoc]
  rw [List.mapM_append]
  have h1 : (d.map (fun kv => (kv.1, encodeCat1 kv.2))).mapM
      (fun kv => (decodeCat1 kv.2).map (fun m => (kv.1, m))) = some d := by
    have := decodeDoc_encodeDoc d
    rwa [encodeDoc, decodeDoc] at this
  rw [h1]
  rfl

theorem any_keys_map_encode (d : Doc) :
    ((d.map (fun kv => (kv.1, encodeCat1 kv.2))).any (fun kv => kv.1 = "cn")) =
      hasKey d "cn" := by
  induction d with
  | nil => rfl
  | cons kv r ih =>
    rw [List.map_cons, List.any_cons, hasKey, List.any_cons]
    rw [hasKey] at ih
    rw [ih]

theorem normalizeCn_encodeDoc (d : Doc) :
    normalizeCn (encodeDoc d) =
      .ok (if hasKey d "cn" then encodeDoc d
           else .obj (d.map (fun kv => (kv.1, encodeCat1 kv.2)) ++ [("cn", .obj [])])) := by
  rw [encodeDoc, normalizeCn, any_keys_map_encode]
  by_cases h : hasKey d "cn"
  · rw [if_pos h, if_pos h]
  · rw [if_neg h, if_neg h]

/-! ## Lemmas about the store operations -/

theorem alook_some_of_hasKey {κ α : Type} [DecidableEq κ] {m : List (κ × α)} {k : κ}
    (dflt : α) (h : hasKey m k = true) : alook m k = some ((alook m k).getD dflt) := by
  rw [hasKey_eq_isSome] at h
  cases ha : alook m k with
  | none => rw [ha] at h; simp at h
  | some v => rfl

theorem alook_none_of_not_hasKey {κ α : Type} [DecidableEq κ] {m : List (κ × α)} {k : κ}
    (h : hasKey m k = false) : alook m k = none := by
  rw [hasKey_eq_isSome] at h
  cases ha : alook m k with
  | none => rfl
  | some v => rw [ha] at h; simp at h

theorem alook_add_country_self (d : Doc) (c : String) :
    alook (add_country d c) c = some ((alook d c).getD []) := by
  rw [add_country]
  by_cases h : hasKey d c
  · rw [if_pos h]
    exact alook_some_of_hasKey [] h
  · rw [if_neg h]
    have hn : alook d c = none := alook_none_of_not_hasKey (by simpa using h)
    rw [alook_append_right _ hn, hn, alook, if_pos rfl]
    rfl

theorem alook_add_cat1_self (d : Doc) (c c1 : String) :
    alook (add_cat1 d c c1) c =
      some (if hasKey ((alook d c).getD []) c1 then (alook d c).getD []
            else (alook d c).getD [] ++ [(c1, [])]) := by
  rw [add_cat1, alook_amodify_self, alook_add_country_self]
  rfl

theorem alook_setdefault (m : Cat1Map) (c1 : String) :
    alook (if hasKey m c1 then m else m ++ [(c1, [])]) c1 =
      some ((alook m c1).getD []) := by
  by_cases h : hasKey m c1
  · rw [if_pos h]
    exact alook_some_of_hasKey [] h
  · rw [if_neg h]
    have hn : alook m c1 = none := alook_none_of_not_hasKey (by simpa using h)
    rw [alook_append_right _ hn, hn, alook, if_pos rfl]
    rfl

theorem add_cat2_inner (d : Doc) (c c1 c2 : String) :
    alook ((alook (add_cat2 d c c1 c2) c).getD []) c1 =
      some (if c2 ∈ (alook ((alook d c).getD []) c1).getD []
            then (alook ((alook d c).getD []) c1).getD []
            else sortStr ((alook ((alook d c).getD []) c1).getD [] ++ [c2])) := by
  rw [add_cat2, alook_amodify_self, alook_add_cat1_self]
  simp only [Option.map_some', Option.getD_some]
  rw [alook_amodify_self, alook_setdefault]
  rfl

theorem cat2_list_add_cat2 (d : Doc) (c c1 c2 : String) :
    cat2_list (add_cat2 d c c1 c2) c c1 =
      sortStr (if c2 ∈ (alook ((alook d c).getD []) c1).getD []
               then (alook ((alook d c).getD []) c1).getD []
               else sortStr ((alook ((alook d c).getD []) c1).getD [] ++ [c2])) := by
  rw [cat2_list, add_cat2_inner]
  rfl

theorem sortStr_perm (l : List String) : (sortStr l).Perm l :=
  List.perm_insertionSort _ l

theorem sortStr_sorted (l : List String) : List.Sorted (· ≤ ·) (sortStr l) :=
  List.sorted_insertionSort _ l

theorem count_add_if_mem (l : List String) (c2 : String) (hnd : l.Nodup) :
    ((if c2 ∈ l then l else sortStr (l ++ [c2])).count c2) = 1 := by
  by_cases h : c2 ∈ l
  · rw [if_pos h]
    have h1 := List.nodup_iff_count_le_one.mp hnd c2
    have h2 : 0 < l.count c2 := List.count_pos_iff.mpr h
    omega
  · rw [if_neg h]
    rw [(sortStr_perm _).count_eq]
    rw [List.count_append, List.count_eq_zero.mpr h]
    simp

theorem nodup_add_if_mem (l : List String) (c2 : String) (hnd : l.Nodup) :
    ((if c2 ∈ l then l else sortStr (l ++ [c2]))).Nodup := by
  by_cases h : c2 ∈ l
  · rwa [if_pos h]
  · rw [if_neg h]
    rw [(sortStr_perm _).nodup_iff]
    exact List.Nodup.append hnd (List.nodup_singleton c2)
      (List.disjoint_left.mpr (fun a ha hb => h ((List.mem_singleton.mp hb) ▸ ha)))

theorem hasKey_amodify {κ α : Type} [DecidableEq κ] (m : List (κ × α)) (k x : κ)
    (f : α → α) : hasKey (amodify m k f) x = hasKey m x := by
  have h1 := hasKey_iff_mem_keys (amodify m k f) x
  rw [keysOf_amodify] at h1
  exact Bool.eq_iff_iff.mpr (h1.trans (hasKey_iff_mem_keys m x).symm)

theorem hasKey_append_left {κ α : Type} [DecidableEq κ] {m₁ : List (κ × α)} {k : κ}
    (m₂ : List (κ × α)) (h : hasKey m₁ k = true) : hasKey (m₁ ++ m₂) k = true := by
  rw [hasKey, List.any_append]
  rw [hasKey] at h
  simp [h]

theorem hasKey_add_country {d : Doc} {k : String} (c : String)
    (h : hasKey d k = true) : hasKey (add_country d c) k = true := by
  rw [add_country]
  by_cases hc : hasKey d c
  · rwa [if_pos hc]
  · rw [if_neg hc]
    exact hasKey_append_left _ h

theorem hasKey_add_country_self (d : Doc) (c : String) :
    hasKey (add_country d c) c = true := by
  rw [add_country]
  by_cases hc : hasKey d c
  · rwa [if_pos hc]
  · rw [if_neg hc, hasKey, List.any_append]
    simp [hasKey]

theorem hasKey_add_cat1 {d : Doc} {k : String} (c c1 : String)
    (h : hasKey d k = true) : hasKey (add_cat1 d c c1) k = true := by
  rw [add_cat1, hasKey_amodify]
  exact hasKey_add_country c h

theorem hasKey_add_cat1_self (d : Doc) (c c1 : String) :
    hasKey (add_cat1 d c c1) c = true := by
  rw [add_cat1, hasKey_amodify]
  exact hasKey_add_country_self d c

theorem hasKey_add_cat2 {d : Doc} {k : String} (c c1 c2 : String)
    (h : hasKey d k = true) : hasKey (add_cat2 d c c1 c2) k = true := by
  rw [add_cat2, hasKey_amodify]
  exact hasKey_add_cat1 c c1 h

theorem hasKey_add_cat2_self (d : Doc) (c c1 c2 : String) :
    hasKey (add_cat2 d c c1 c2) c = true := by
  rw [add_cat2, hasKey_amodify]
  exact hasKey_add_cat1_self d c c1

theorem hasKey_remove_cat1 {d : Doc} {k : String} (c c1 : String)
    (h : hasKey d k = true) : hasKey (remove_cat1 d c c1).1 k = true := by
  rw [remove_cat1]
  cases ha : alook d c with
  | none => exact h
  | some m =>
    simp only
    by_cases h1 : m.isEmpty
    · rw [if_pos h1]; exact h
    · rw [if_neg h1]
      by_cases h2 : hasKey m c1
      · rw [if_pos h2]
        show hasKey (amodify d c _) k = true
        rw [hasKey_amodify]
        exact h
      · rw [if_neg h2]; exact h

theorem hasKey_remove_cat2 {d : Doc} {k : String} (c c1 c2 : String)
    (h : hasKey d k = true) : hasKey (remove_cat2 d c c1 c2).1 k = true := by
  rw [remove_cat2]
  cases ha : alook ((alook d c).getD []) c1 with
  | none => exact h
  | some l =>
    simp only
    by_cases h1 : l.isEmpty
    · rw [if_pos h1]; exact h
    · rw [if_neg h1]
      by_cases h2 : c2 ∈ l
      · rw [if_pos h2]
        show hasKey (amodify d c _) k = true
        rw [hasKey_amodify]
        exact h
      · rw [if_neg h2]; exact h

theorem hasKey_normalizeDocCn (raw : Doc) : hasKey (normalizeDocCn raw) "cn" = true := by
  rw [normalizeDocCn]
  by_cases h : hasKey raw "cn"
  · rwa [if_pos h]
  · rw [if_neg h, hasKey, List.any_append]
    simp [hasKey]

/-! ## Well-formedness preservation -/

theorem WF_inner_nodup {d : Doc} (h : WFDoc d) (c : String) :
    (keysOf ((alook d c).getD [])).Nodup := by
  cases ha : alook d c with
  | none => simp [keysOf]
  | some m => exact (h.2 (c, m) (alook_mem ha)).1

theorem WF_cat2_nodup {d : Doc} (h : WFDoc d) (c c1 : String) :
    ((alook ((alook d c).getD []) c1).getD []).Nodup := by
  cases ha : alook d c with
  | none => simp [alook]
  | some m =>
    rw [Option.getD_some]
    cases hb : alook m c1 with
    | none => simp
    | some l =>
      rw [Option.getD_some]
      exact ((h.2 (c, m) (alook_mem ha)).2 (c1, l) (alook_mem hb)).1

theorem WF_add_country {d : Doc} (h : WFDoc d) (c : String) :
    WFDoc (add_country d c) := by
  rw [add_country]
  by_cases hc : hasKey d c
  · rwa [if_pos hc]
  · rw [if_neg hc]
    constructor
    · rw [keysOf, List.map_append]
      refine List.Nodup.append h.1 (List.nodup_singleton c) ?_
      refine List.disjoint_left.mpr (fun a ha hb => ?_)
      rw [List.map_singleton, List.mem_singleton] at hb
      subst hb
      exact hc ((hasKey_iff_mem_keys d _).mpr ha)
    · intro p hp
      rcases List.mem_append.mp hp with hp | hp
      · exact h.2 p hp
      · rw [List.mem_singleton] at hp
        subst hp
        exact ⟨List.nodup_nil, fun q hq => absurd hq (List.not_mem_nil q)⟩

theorem WF_add_cat1 {d : Doc} (h : WFDoc d) (c c1 : String) :
    WFDoc (add_cat1 d c c1) := by
  rw [add_cat1]
  have h' := WF_add_country h c
  constructor
  · rw [keysOf_amodify]
    exact h'.1
  · intro p hp
    rcases mem_amodify hp with hp | ⟨v, hv, hpv⟩
    · exact h'.2 p hp
    · subst hpv
      have hv' := h'.2 (c, v) hv
      by_cases hk : hasKey v c1
      · simpa [hk] using hv'
      · simp only [if_neg hk]
        constructor
        · rw [keysOf, List.map_append]
          refine List.Nodup.append hv'.1 (List.nodup_singleton c1) ?_
          refine List.disjoint_left.mpr (fun a ha hb => ?_)
          rw [List.map_singleton, List.mem_singleton] at hb
          subst hb
          exact hk ((hasKey_iff_mem_keys v a).mpr ha)
        · intro q hq
          rcases List.mem_append.mp hq with hq | hq
          · exact hv'.2 q hq
          · rw [List.mem_singleton] at hq
            subst hq
            exact ⟨List.nodup_nil, List.sorted_nil⟩

theorem WF_add_cat2 {d : Doc} (h : WFDoc d) (c c1 c2 : String) :
    WFDoc (add_cat2 d c c1 c2) := by
  rw [add_cat2]
  have h' := WF_add_cat1 h c c1
  constructor
  · rw [keysOf_amodify]
    exact h'.1
  · intro p hp
    rcases mem_amodify hp with hp | ⟨v, hv, hpv⟩
    · exact h'.2 p hp
    · subst hpv
      have hv' := h'.2 (c, v) hv
      constructor
      · rw [keysOf_amodify]
        exact hv'.1
      · intro q hq
        rcases mem_amodify hq with hq | ⟨l, hl, hql⟩
        · exact hv'.2 q hq
        · subst hql
          have hl' := hv'.2 (c1, l) hl
          by_cases hm : c2 ∈ l
          · simpa [hm] using hl'
          · simp only [if_neg hm]
            refine ⟨?_, sortStr_sorted _⟩
            rw [(sortStr_perm _).nodup_iff]
            exact List.Nodup.append hl'.1 (List.nodup_singleton c2)
              (List.disjoint_left.mpr (fun a ha hb => hm ((List.mem_singleton.mp hb) ▸ ha)))

/-! ## Lemmas about directory synchronization -/

theorem mem_pathInits {q p : Path} : q ∈ pathInits p ↔ q ≠ [] ∧ q <+: p := by
  rw [pathInits, List.mem_filter, List.mem_inits]
  constructor
  · rintro ⟨h1, h2⟩
    exact ⟨by simpa [List.isEmpty_iff] using h2, h1⟩
  · rintro ⟨h1, h2⟩
    exact ⟨h2, by simpa [List.isEmpty_iff] using h1⟩

theorem mem_mkdirParents {fs : DirSet} {p q : Path} :
    q ∈ mkdirParents fs p ↔ q ∈ fs ∨ (q ≠ [] ∧ q <+: p) := by
  rw [mkdirParents, List.mem_append, List.mem_filter]
  constructor
  · rintro (h | ⟨h1, _⟩)
    · exact Or.inl h
    · exact Or.inr (mem_pathInits.mp h1)
  · rintro (h | h)
    · exact Or.inl h
    · by_cases hf : q ∈ fs
      · exact Or.inl hf
      · exact Or.inr ⟨mem_pathInits.mpr h, by simpa using hf⟩

theorem subset_mkdirParents (fs : DirSet) (p : Path) : fs ⊆ mkdirParents fs p :=
  fun _ hq => List.mem_append.mpr (Or.inl hq)

theorem self_mem_mkdirParents {fs : DirSet} {p : Path} (h : p ≠ []) :
    p ∈ mkdirParents fs p := mem_mkdirParents.mpr (Or.inr ⟨h, List.prefix_refl p⟩)

theorem syncFold_spec :
    ∀ (ts : List Path) (fs : DirSet) (acc : List Path),
      ts.Nodup → (∀ p ∈ ts, p.length = 3) →
      (ts.foldl syncStep (fs, acc)).2 = acc ++ ts.filter (fun p => decide (p ∉ fs)) ∧
      (∀ q ∈ fs, q ∈ (ts.foldl syncStep (fs, acc)).1) ∧
      (∀ p ∈ ts, p ∈ (ts.foldl syncStep (fs, acc)).1) := by
  intro ts
  induction ts with
  | nil =>
    intro fs acc _ _
    exact ⟨by simp, fun _ hq => hq, by simp⟩
  | cons p ts ih =>
    intro fs acc hnd hlen
    have hndt : ts.Nodup := (List.nodup_cons.mp hnd).2
    have hpt : p ∉ ts := (List.nodup_cons.mp hnd).1
    have hlent : ∀ q ∈ ts, q.length = 3 :=
      fun q hq => hlen q (List.mem_cons_of_mem _ hq)
    have hplen : p.length = 3 := hlen p (List.mem_cons_self _ _)
    rw [List.foldl_cons, syncStep]
    by_cases hp : p ∈ fs
    · rw [if_pos hp]
      obtain ⟨h1, h2, h3⟩ := ih fs acc hndt hlent
      refine ⟨?_, h2, ?_⟩
      · rw [h1, List.filter_cons]
        simp [hp]
      · intro q hq
        rcases List.mem_cons.mp hq with rfl | hq'
        · exact h2 _ hp
        · exact h3 _ hq'
    · rw [if_neg hp]
      obtain ⟨h1, h2, h3⟩ := ih (mkdirParents fs p) (acc ++ [p]) hndt hlent
      have hfil : ts.filter (fun q => decide (q ∉ mkdirParents fs p)) =
          ts.filter (fun q => decide (q ∉ fs)) := by
        apply List.filter_congr
        intro q hq
        simp only [decide_eq_decide]
        rw [mem_mkdirParents]
        constructor
        · intro hc hmem
          exact hc (Or.inl hmem)
        · rintro hc (hmem | ⟨_, hpre⟩)
          · exact hc hmem
          · have heq : q = p := hpre.eq_of_length (by rw [hlent q hq, hplen])
            exact hpt (heq ▸ hq)
      refine ⟨?_, ?_, ?_⟩
      · rw [h1, hfil, List.filter_cons]
        have hd : (decide (p ∉ fs)) = true := by simp [hp]
        rw [hd]
        simp
      · intro q hq
        exact h2 q (subset_mkdirParents fs p hq)
      · intro q hq
        rcases List.mem_cons.mp hq with rfl | hq'
        · refine h2 q (self_mem_mkdirParents ?_)
          intro he
          rw [he] at hplen
          simp at hplen
        · exact h3 q hq'

theorem syncFold_skip :
    ∀ (ts : List Path) (fs : DirSet) (acc : List Path),
      (∀ p ∈ ts, p ∈ fs) → ts.foldl syncStep (fs, acc) = (fs, acc) := by
  intro ts
  induction ts with
  | nil => intro fs acc _; rfl
  | cons p ts ih =>
    intro fs acc h
    rw [List.foldl_cons, syncStep, if_pos (h p (List.mem_cons_self _ _))]
    exact ih fs acc (fun q hq => h q (List.mem_cons_of_mem _ hq))

theorem mem_triplePaths_shape {d : Doc} {copt : Option String} {q : Path}
    (h : q ∈ triplePaths d copt) : ∃ a b e, q = [a, b, e] := by
  rw [triplePaths] at h
  rcases List.mem_flatMap.mp h with ⟨c, _, hc⟩
  rcases List.mem_flatMap.mp hc with ⟨c1, _, hc1⟩
  rcases List.mem_map.mp hc1 with ⟨c2, _, hq⟩
  exact ⟨c, c1, c2, hq.symm⟩

theorem triplePaths_length {d : Doc} {copt : Option String} {q : Path}
    (h : q ∈ triplePaths d copt) : q.length = 3 := by
  rcases mem_triplePaths_shape h with ⟨a, b, e, rfl⟩
  rfl

theorem cat1_list_nodup {d : Doc} (h : WFDoc d) (c : String) :
    (cat1_list d c).Nodup := by
  rw [cat1_list]
  rw [(sortStr_perm _).nodup_iff]
  exact WF_inner_nodup h c

theorem cat2_list_nodup {d : Doc} (h : WFDoc d) (c c1 : String) :
    (cat2_list d c c1).Nodup := by
  rw [cat2_list]
  rw [(sortStr_perm _).nodup_iff]
  exact WF_cat2_nodup h c c1

theorem countries_nodup {d : Doc} (h : WFDoc d) : (countries d).Nodup := by
  rw [countries]
  rw [(sortStr_perm _).nodup_iff]
  exact h.1

theorem inner_triples_nodup {d : Doc} (h : WFDoc d) (c : String) :
    ((cat1_list d c).flatMap (fun c1 =>
      (cat2_list d c c1).map (fun c2 => [c, c1, c2]))).Nodup := by
  rw [List.nodup_flatMap]
  constructor
  · intro c1 _
    refine List.Nodup.map ?_ (cat2_list_nodup h c c1)
    intro x y hxy
    simpa using hxy
  · refine (cat1_list_nodup h c).imp ?_
    intro a b hab
    refine List.disjoint_left.mpr ?_
    intro q hqa hqb
    rcases List.mem_map.mp hqa with ⟨x, _, hx⟩
    rcases List.mem_map.mp hqb with ⟨y, _, hy⟩
    have heq : ([c, a, x] : Path) = [c, b, y] := hx.trans hy.symm
    simp only [List.cons.injEq] at heq
    exact hab heq.2.1

theorem triplePaths_nodup {d : Doc} (h : WFDoc d) (copt : Option String) :
    (triplePaths d copt).Nodup := by
  rw [triplePaths]
  cases copt with
  | some c =>
    rw [syncCountries]
    simp only [List.flatMap_cons, List.flatMap_nil, List.append_nil]
    exact inner_triples_nodup h c
  | none =>
    rw [syncCountries]
    rw [List.nodup_flatMap]
    constructor
    · intro c _
      exact inner_triples_nodup h c
    · refine (countries_nodup h).imp ?_
      intro a b hab
      refine List.disjoint_left.mpr ?_
      intro q hqa hqb
      rcases List.mem_flatMap.mp hqa with ⟨x, _, hx⟩
      rcases List.mem_map.mp hx with ⟨x2, _, hx2⟩
      rcases List.mem_flatMap.mp hqb with ⟨y, _, hy⟩
      rcases List.mem_map.mp hy with ⟨y2, _, hy2⟩
      have heq : ([a, x, x2] : Path) = [b, y, y2] := hx2.trans hy2.symm
      simp only [List.cons.injEq] at heq
      exact hab heq.1

/-! ## Decomposition of the rendered scenario output -/

theorem rstripPy_closing (Y T : List Char) (c : Char) (hc : pyWs c = false)
    (hT : T.getLast? = some c) : rstripPy ((Y ++ T) ++ ['\n']) = Y ++ T := by
  have hrw : ((Y ++ T) ++ ['\n']).reverse = '\n' :: (T.reverse ++ Y.reverse) := by
    simp [List.reverse_append]
  have hh : (T.reverse ++ Y.reverse).head?.all (fun x => !pyWs x) = true := by
    have hrev : T.reverse.head? = some c := by
      rw [List.head?_reverse]; exact hT
    cases hrevT : T.reverse with
    | nil => rw [hrevT] at hrev; simp at hrev
    | cons a r =>
      rw [hrevT] at hrev
      simp only [List.head?_cons, Option.some.injEq] at hrev
      subst hrev
      simp [hc]
  rw [rstripPy, dropEndWhile, hrw, List.dropWhile_cons, if_pos (by decide),
    dropWhile_eq_self_of_head hh]
  simp [List.reverse_append]

theorem render_spicy_suffix (ts : List Char) :
    ∃ Y, render_yaml_template ts "Spicy Chips!" "line1\nline2" "cn" "food" "snacks" =
      (Y ++ ("    line1\n    line2" : String).data) ++ ['\n'] := by
  rw [render_yaml_template]
  simp only [joinWith]
  rw [(by decide :
    yaml_escape_multiline ("line1\nline2" : String).data 4 =
      ("    line1\n    line2" : String).data)]
  simp only [← List.append_assoc, List.append_nil]
  rw [rstripPy_closing _ _ '2' (by decide) (by decide)]
  exact ⟨_, rfl⟩

theorem spicy_body_lines (ts : List Char) :
    ("line1" : String).data <:+:
      render_yaml_template ts "Spicy Chips!" "line1\nline2" "cn" "food" "snacks" ∧
    ("line2" : String).data <:+:
      render_yaml_template ts "Spicy Chips!" "line1\nline2" "cn" "food" "snacks" := by
  obtain ⟨Y, hY⟩ := render_spicy_suffix ts
  rw [hY]
  have hblock : ("    line1\n    line2" : String).data <:+:
      (Y ++ ("    line1\n    line2" : String).data) ++ ['\n'] :=
    ((List.suffix_append Y _).isInfix).trans (List.prefix_append _ _).isInfix
  exact ⟨(by decide : ("line1" : String).data <:+: ("    line1\n    line2" : String).data).trans hblock,
    (by decide : ("line2" : String).data <:+: ("    line1\n    line2" : String).data).trans hblock⟩

/-! ## The claims -/

/-- C1 counterexample: an asset with an empty role and a 64-character
non-hexadecimal hash whose URI is on the asset domain is accepted by the
schema validation, although it violates the spec's asset requirements. -/
theorem asset_accepts_empty_role_nonhex_hash :
    assetViolations ⟨"", String.mk (List.replicate 64 'z'),
      "https://assets.data-records.net/x"⟩ = [] ∧
    specAssetOk ⟨"", String.mk (List.replicate 64 'z'),
      "https://assets.data-records.net/x"⟩ = false :=
  ⟨by decide, by decide⟩

/-- C1 (amended): an asset descriptor passes the schema checks exactly
when its hash is exactly 64 characters long (hexadecimal or not) and its
URI begins with `https://assets.data-records.net/`; the role is not
constrained.  A payload's combined asset check passes exactly when every
asset passes individually. -/
theorem asset_acceptance :
    (∀ a : AssetIn, assetViolations a = [] ↔
      (a.hash_sha256.data.length = 64 ∧ assetUriOk a.uri = true)) ∧
    (∀ assets : List AssetIn, assets.flatMap assetViolations = [] ↔
      ∀ a ∈ assets, assetViolations a = []) := by
  constructor
  · intro a
    rw [assetViolations]
    constructor
    · intro h
      by_cases h1 : a.hash_sha256.data.length < 64 ∨ 64 < a.hash_sha256.data.length
      · rw [if_pos h1] at h
        simp at h
      · rw [if_neg h1] at h
        push_neg at h1
        by_cases h2 : assetUriOk a.uri
        · exact ⟨by omega, h2⟩
        · rw [if_neg h2] at h
          simp at h
    · rintro ⟨h1, h2⟩
      rw [if_neg (by omega), if_pos h2]
      rfl
  · intro assets
    induction assets with
    | nil => simp
    | cons a r ih =>
      rw [List.flatMap_cons, List.append_eq_nil]
      constructor
      · rintro ⟨ha, hr⟩
        intro x hx
        rcases List.mem_cons.mp hx with rfl | hx'
        · exact ha
        · exact ih.mp hr x hx'
      · intro h
        exact ⟨h a (List.mem_cons_self _ _), ih.mpr (fun x hx => h x (List.mem_cons_of_mem _ hx))⟩

/-- C2 counterexample: in the end-to-end scenario the generated filename is
`Spicy-Chips!.yaml` — it keeps the exclamation mark and the capitals, so it
is not `spicy-chips.yaml` and does contain `'!'`. -/
theorem spicy_filename_cex :
    (spicyGen ("T" : String).data).2 = .ok spicyPath ∧
    spicyPath.getLast? = some "Spicy-Chips!.yaml" ∧
    '!' ∈ ("Spicy-Chips!.yaml" : String).data ∧
    genFileName "Spicy Chips!" ≠ "spicy-chips.yaml" :=
  ⟨by decide, by decide, by decide, by decide⟩

/-- C2 (amended): starting from an empty root, after adding `cn`, `food`,
`snacks`, syncing and generating `"Spicy Chips!"` with description
`"line1\nline2"`, the file is written at
`cn/food/snacks/Spicy-Chips!.yaml` (the slug keeps case and `'!'`), and
its body contains both description lines. -/
theorem spicy_pipeline (ts : List Char) :
    (spicyGen ts).2 = .ok spicyPath ∧
    alook (spicyGen ts).1.files spicyPath =
      some (render_yaml_template ts "Spicy Chips!" "line1\nline2" "cn" "food" "snacks") ∧
    ("line1" : String).data <:+:
      render_yaml_template ts "Spicy Chips!" "line1\nline2" "cn" "food" "snacks" ∧
    ("line2" : String).data <:+:
      render_yaml_template ts "Spicy Chips!" "line1\nline2" "cn" "food" "snacks" ∧
    '!' ∈ ("Spicy-Chips!.yaml" : String).data :=
  ⟨rfl, rfl, (spicy_body_lines ts).1, (spicy_body_lines ts).2, by decide⟩

/-- C5 counterexample: a metadata file whose JSON parses to
`{"cn": 42}` — not the expected country-to-categories structure — is
accepted by `load` and returned as the store's data instead of failing. -/
theorem load_accepts_malformed_structure :
    loadMeta (.parsed (.obj [("cn", .num 42)])) =
      .ok (.obj [("cn", .num 42)], .parsed (.obj [("cn", .num 42)])) ∧
    decodeDoc (.obj [("cn", .num 42)]) = none :=
  ⟨rfl, rfl⟩

/-- C5 (amended): `load` reads the fixed location `_meta/categories.json`;
an absent file is replaced by the persisted default document with exactly
the one country `"cn"` and no categories; content rejected by `json.loads`
makes `load` fail; but `load` performs no structural validation, so any
parsed JSON object is accepted regardless of its shape. -/
theorem load_behavior :
    loadMeta .absent = .ok (defaultDocJ, .parsed defaultDocJ) ∧
    defaultDocJ = .obj [("cn", .obj [])] ∧
    loadMeta .garbage = .error .jsonDecode ∧
    (∀ fields, ∃ v, loadMeta (.parsed (.obj fields)) = .ok (v, .parsed (.obj fields))) ∧
    (∀ rootFiles : Path → MetaFile,
      loadFromFS rootFiles = loadMeta (rootFiles ["_meta", "categories.json"])) := by
  refine ⟨rfl, rfl, rfl, ?_, fun _ => rfl⟩
  intro fields
  rw [loadMeta, normalizeCn]
  by_cases h : fields.any (fun kv => kv.1 = "cn")
  · rw [if_pos h]
    exact ⟨_, rfl⟩
  · rw [if_neg h]
    exact ⟨_, rfl⟩

/-- C6 counterexample: `sanitize` does not strip the control character
DEL (U+007F): for the non-empty input `a\x7Fb` the output contains it. -/
theorem sanitize_keeps_del :
    (['a', Char.ofNat 127, 'b'] : List Char) ≠ [] ∧
    Char.ofNat 127 ∈ slugify ['a', Char.ofNat 127, 'b'] ∧
    isControlChar (Char.ofNat 127) = true :=
  ⟨by decide, by decide, by decide⟩

/-- C6 (amended): for every non-empty input, `sanitize` returns a
non-empty string with no reserved filesystem characters and no control
characters in the C0 range U+0000–U+001F (controls at U+007F and above are
not stripped), neither starting nor ending with a separator or dot; empty
and whitespace-only input yields the fallback token. -/
theorem sanitize_shape (x : List Char) (h : x ≠ []) :
    slugify x ≠ [] ∧
    (∀ c ∈ slugify x, reservedChar c = false ∧ 32 ≤ c.toNat) ∧
    (slugify x).head?.all (fun c => !edgeChar c) = true ∧
    (slugify x).getLast?.all (fun c => !edgeChar c) = true ∧
    slugify_filename "" = "unnamed-product" ∧
    slugify_filename "   " = "unnamed-product" := by
  obtain ⟨h1, h2, _, h4, h5⟩ := goodSlug_slugify x
  refine ⟨h1, ?_, h4, h5, by decide, by decide⟩
  intro c hc
  have hil := (h2 c hc).2
  rw [illegalChar, Bool.or_eq_false_iff] at hil
  have h32 : ¬(c.toNat < 32) := of_decide_eq_false hil.2
  exact ⟨hil.1, by omega⟩

/-- Witness for the amended C6 at the concrete input `"a"`. -/
theorem sanitize_shape_witness :
    (("a" : String).data ≠ []) ∧
    (slugify ("a" : String).data ≠ [] ∧
      (∀ c ∈ slugify ("a" : String).data, reservedChar c = false ∧ 32 ≤ c.toNat) ∧
      (slugify ("a" : String).data).head?.all (fun c => !edgeChar c) = true ∧
      (slugify ("a" : String).data).getLast?.all (fun c => !edgeChar c) = true ∧
      slugify_filename "" = "unnamed-product" ∧
      slugify_filename "   " = "unnamed-product") :=
  ⟨by decide, sanitize_shape ("a" : String).data (by decide)⟩

/-- C7: `sanitize` is idempotent: sanitizing an already-sanitized name
changes nothing. -/
theorem sanitize_idempotent (x : String) :
    slugify_filename (slugify_filename x) = slugify_filename x := by
  rw [slugify_filename, slugify_filename]
  congr 1
  exact slugify_eq_self (goodSlug_slugify x.data)

set_option maxRecDepth 10000 in
/-- C3 counterexample: the engine's `generate_record_yaml` silently
replaces an existing target file — it has no overwrite flag and no
conflict check. -/
theorem engine_generate_overwrites :
    alook [(cexEnginePath, ("OLD" : String).data)] cexEnginePath =
      some ("OLD" : String).data ∧
    (generate_record_yaml [] [(cexEnginePath, ("OLD" : String).data)] cexRecord
      ["cn", "food", "snacks"]).2.2 = .ok cexEnginePath ∧
    alook (generate_record_yaml [] [(cexEnginePath, ("OLD" : String).data)] cexRecord
      ["cn", "food", "snacks"]).2.1 cexEnginePath = some (engineContent cexRecord) ∧
    engineContent cexRecord ≠ ("OLD" : String).data :=
  ⟨by decide, by decide, by decide, by decide⟩

/-- C3 (amended): `cmd_gen` refuses to overwrite: with the taxonomy checks
satisfied, if the target file exists and overwrite is false it fails with
the conflict error and leaves the file map untouched, and a second
identical request after a successful generation fails with the conflict
error while the first call's content stays in place.  (The engine's
`generate_record_yaml` has no such protection — see the counterexample.) -/
theorem cmd_gen_conflict (s : SysState) (c c1 c2 name desc : String)
    (ts ts' : List Char) :
    (hasKey s.doc c = true →
     hasKey ((alook s.doc c).getD []) c1 = true →
     ((alook ((alook s.doc c).getD []) c1).getD []).contains c2 = true →
     (alook s.files (target_dir c c1 c2 ++ [genFileName name])).isSome = true →
     (cmd_gen s c c1 c2 name desc false ts).2 =
       .error (.conflict (target_dir c c1 c2 ++ [genFileName name])) ∧
     (cmd_gen s c c1 c2 name desc false ts).1.files = s.files) ∧
    (hasKey s.doc c = true →
     hasKey ((alook s.doc c).getD []) c1 = true →
     ((alook ((alook s.doc c).getD []) c1).getD []).contains c2 = true →
     alook s.files (target_dir c c1 c2 ++ [genFileName name]) = none →
     (cmd_gen s c c1 c2 name desc false ts).2 =
       .ok (target_dir c c1 c2 ++ [genFileName name]) ∧
     alook (cmd_gen s c c1 c2 name desc false ts).1.files
         (target_dir c c1 c2 ++ [genFileName name]) =
       some (render_yaml_template ts name desc c c1 c2) ∧
     (cmd_gen (cmd_gen s c c1 c2 name desc false ts).1 c c1 c2 name desc false ts').2 =
       .error (.conflict (target_dir c c1 c2 ++ [genFileName name])) ∧
     alook (cmd_gen (cmd_gen s c c1 c2 name desc false ts).1 c c1 c2 name desc
         false ts').1.files (target_dir c c1 c2 ++ [genFileName name]) =
       some (render_yaml_template ts name desc c c1 c2)) := by
  constructor
  · intro h1 h2 h3 h4
    rw [cmd_gen, h1, h2, h3]
    simp only [Bool.not_true, Bool.false_eq_true, if_false]
    rw [h4]
    simp
  · intro h1 h2 h3 h4
    have h4' : (alook s.files (target_dir c c1 c2 ++ [genFileName name])).isSome = false := by
      rw [h4]
      rfl
    have hfirst : cmd_gen s c c1 c2 name desc false ts =
        (⟨s.doc, mkdirParents (sync_dirs s.dirs s.doc (some c)).1 (target_dir c c1 c2),
          aset s.files (target_dir c c1 c2 ++ [genFileName name])
            (render_yaml_template ts name desc c c1 c2)⟩,
         .ok (target_dir c c1 c2 ++ [genFileName name])) := by
      rw [cmd_gen, h1, h2, h3]
      simp only [Bool.not_true, Bool.false_eq_true, if_false]
      rw [h4']
      simp
    refine ⟨by rw [hfirst], ?_, ?_, ?_⟩
    · rw [hfirst]
      dsimp only
      exact alook_aset_self _ _ _
    · rw [hfirst]
      dsimp only
      rw [cmd_gen]
      dsimp only
      rw [h1, h2, h3]
      simp only [Bool.not_true, Bool.false_eq_true, if_false]
      rw [alook_aset_self]
      simp
    · rw [hfirst]
      dsimp only
      rw [cmd_gen]
      dsimp only
      rw [h1, h2, h3]
      simp only [Bool.not_true, Bool.false_eq_true, if_false]
      rw [alook_aset_self]
      simp only [Option.isSome_some, Bool.not_false, Bool.and_true, if_true]
      exact alook_aset_self _ _ _

/-- Witness for the amended C3 at concrete states: an existing target is
protected, and a second identical request fails after a first success. -/
theorem cmd_gen_conflict_witness :
    ((cmd_gen conflictState "cn" "food" "snacks" "x" "" false ("T" : String).data).2 =
       .error (.conflict (target_dir "cn" "food" "snacks" ++ [genFileName "x"])) ∧
     (cmd_gen conflictState "cn" "food" "snacks" "x" "" false
       ("T" : String).data).1.files = conflictState.files) ∧
    ((cmd_gen freshState "cn" "food" "snacks" "x" "" false ("T" : String).data).2 =
       .ok (target_dir "cn" "food" "snacks" ++ [genFileName "x"]) ∧
     alook (cmd_gen freshState "cn" "food" "snacks" "x" "" false
         ("T" : String).data).1.files (target_dir "cn" "food" "snacks" ++ [genFileName "x"]) =
       some (render_yaml_template ("T" : String).data "x" "" "cn" "food" "snacks") ∧
     (cmd_gen (cmd_gen freshState "cn" "food" "snacks" "x" "" false
         ("T" : String).data).1 "cn" "food" "snacks" "x" "" false ("U" : String).data).2 =
       .error (.conflict (target_dir "cn" "food" "snacks" ++ [genFileName "x"])) ∧
     alook (cmd_gen (cmd_gen freshState "cn" "food" "snacks" "x" "" false
         ("T" : String).data).1 "cn" "food" "snacks" "x" "" false
         ("U" : String).data).1.files (target_dir "cn" "food" "snacks" ++ [genFileName "x"]) =
       some (render_yaml_template ("T" : String).data "x" "" "cn" "food" "snacks")) :=
  ⟨(cmd_gen_conflict conflictState "cn" "food" "snacks" "x" ""
      ("T" : String).data ("U" : String).data).1 (by decide) (by decide) (by decide) (by decide),
   (cmd_gen_conflict freshState "cn" "food" "snacks" "x" ""
      ("T" : String).data ("U" : String).data).2 (by decide) (by decide) (by decide) (by decide)⟩

/-- C4: when the country, primary or secondary category is missing from
the taxonomy, `cmd_gen` fails with the error naming exactly that level and
returns the state unchanged — no directory is created, no file is written
and no taxonomy entry is added. -/
theorem cmd_gen_taxonomy_guard (s : SysState) (c c1 c2 name desc : String)
    (ow : Bool) (ts : List Char) :
    (hasKey s.doc c = false →
      cmd_gen s c c1 c2 name desc ow ts = (s, .error (.countryMissing c))) ∧
    (hasKey s.doc c = true → hasKey ((alook s.doc c).getD []) c1 = false →
      cmd_gen s c c1 c2 name desc ow ts = (s, .error (.cat1Missing c c1))) ∧
    (hasKey s.doc c = true → hasKey ((alook s.doc c).getD []) c1 = true →
      ((alook ((alook s.doc c).getD []) c1).getD []).contains c2 = false →
      cmd_gen s c c1 c2 name desc ow ts = (s, .error (.cat2Missing c c1 c2))) := by
  refine ⟨fun h1 => ?_, fun h1 h2 => ?_, fun h1 h2 h3 => ?_⟩
  · rw [cmd_gen, h1]
    simp
  · rw [cmd_gen, h1, h2]
    simp
  · rw [cmd_gen, h1, h2, h3]
    simp

/-- Witness for C4 at a concrete store missing each of the three levels. -/
theorem cmd_gen_taxonomy_guard_witness :
    (cmd_gen freshState "xx" "food" "snacks" "n" "" false [] =
      (freshState, .error (.countryMissing "xx"))) ∧
    (cmd_gen freshState "cn" "drinks" "snacks" "n" "" false [] =
      (freshState, .error (.cat1Missing "cn" "drinks"))) ∧
    (cmd_gen freshState "cn" "food" "candy" "n" "" false [] =
      (freshState, .error (.cat2Missing "cn" "food" "candy"))) :=
  ⟨(cmd_gen_taxonomy_guard freshState "xx" "food" "snacks" "n" "" false []).1 (by decide),
   (cmd_gen_taxonomy_guard freshState "cn" "drinks" "snacks" "n" "" false []).2.1
     (by decide) (by decide),
   (cmd_gen_taxonomy_guard freshState "cn" "food" "candy" "n" "" false []).2.2
     (by decide) (by decide) (by decide)⟩

/-- C8: in a well-formed store, after `add_cat2 c "food" "snacks"`, saving
(JSON-encoding) and freshly loading the document, the reloaded store lists
`"snacks"` under `(c, "food")` exactly once and in sorted order; and the
mutated store stays well-formed (secondary lists duplicate-free and
sorted). -/
theorem add_cat2_save_load (d : Doc) (c : String) (h : WFDoc d) :
    (∃ v f, loadMeta (.parsed (encodeDoc (add_cat2 d c "food" "snacks"))) = .ok (v, f) ∧
      ∃ d2, decodeDoc v = some d2 ∧
        (cat2_list d2 c "food").count "snacks" = 1 ∧
        List.Sorted (· ≤ ·) (cat2_list d2 c "food")) ∧
    WFDoc (add_cat2 d c "food" "snacks") := by
  refine ⟨?_, WF_add_cat2 h c "food" "snacks"⟩
  have hcount : (cat2_list (add_cat2 d c "food" "snacks") c "food").count "snacks" = 1 := by
    rw [cat2_list_add_cat2, (sortStr_perm _).count_eq]
    exact count_add_if_mem _ _ (WF_cat2_nodup h c "food")
  rw [loadMeta, normalizeCn_encodeDoc]
  by_cases hcn : hasKey (add_cat2 d c "food" "snacks") "cn"
  · rw [if_pos hcn]
    exact ⟨encodeDoc (add_cat2 d c "food" "snacks"), _, rfl,
      add_cat2 d c "food" "snacks", decodeDoc_encodeDoc _, hcount, sortStr_sorted _⟩
  · rw [if_neg hcn]
    refine ⟨_, _, rfl, add_cat2 d c "food" "snacks" ++ [("cn", [])],
      decodeDoc_encode_append_cn _, ?_, sortStr_sorted _⟩
    have hc : alook (add_cat2 d c "food" "snacks" ++ [("cn", [])]) c =
        alook (add_cat2 d c "food" "snacks") c :=
      alook_append_left _
        (by rw [← hasKey_eq_isSome]; exact hasKey_add_cat2_self d c "food" "snacks")
    rw [cat2_list, hc, ← cat2_list]
    exact hcount

/-- Witness for C8 at the default store. -/
theorem add_cat2_save_load_witness :
    WFDoc [("cn", ([] : Cat1Map))] ∧
    ((∃ v f, loadMeta (.parsed (encodeDoc (add_cat2 [("cn", [])] "cn" "food" "snacks"))) =
        .ok (v, f) ∧
      ∃ d2, decodeDoc v = some d2 ∧
        (cat2_list d2 "cn" "food").count "snacks" = 1 ∧
        List.Sorted (· ≤ ·) (cat2_list d2 "cn" "food")) ∧
    WFDoc (add_cat2 [("cn", [])] "cn" "food" "snacks")) :=
  ⟨by decide, add_cat2_save_load [("cn", [])] "cn" (by decide)⟩

/-- C9: on a well-formed store, `sync_dirs` reports exactly the triple
directories that did not yet exist (in iteration order), a second
synchronization reports nothing, and no existing directory is removed
(creation of pre-existing directories is skipped, never an error). -/
theorem sync_dirs_spec (fs : DirSet) (d : Doc) (copt : Option String) (h : WFDoc d) :
    (sync_dirs fs d copt).2 = (triplePaths d copt).filter (fun p => decide (p ∉ fs)) ∧
    (sync_dirs (sync_dirs fs d copt).1 d copt).2 = [] ∧
    (∀ q ∈ fs, q ∈ (sync_dirs fs d copt).1) := by
  obtain ⟨h1, h2, h3⟩ := syncFold_spec (triplePaths d copt) fs []
    (triplePaths_nodup h copt) (fun p hp => triplePaths_length hp)
  refine ⟨?_, ?_, ?_⟩
  · rw [sync_dirs, h1, List.nil_append]
  · have hmem : ∀ p ∈ triplePaths d copt, p ∈ (sync_dirs fs d copt).1 := by
      intro p hp
      rw [sync_dirs]
      exact h3 p hp
    rw [sync_dirs, syncFold_skip _ _ _ hmem]
  · intro q hq
    rw [sync_dirs]
    exact h2 q hq

/-- Witness for C9 on a one-triple store with an empty filesystem. -/
theorem sync_dirs_spec_witness :
    WFDoc [("cn", [("food", ["snacks"])])] ∧
    ((sync_dirs [] [("cn", [("food", ["snacks"])])] none).2 =
      (triplePaths [("cn", [("food", ["snacks"])])] none).filter
        (fun p => decide (p ∉ ([] : DirSet))) ∧
    (sync_dirs (sync_dirs [] [("cn", [("food", ["snacks"])])] none).1
      [("cn", [("food", ["snacks"])])] none).2 = [] ∧
    (∀ q ∈ ([] : DirSet),
      q ∈ (sync_dirs [] [("cn", [("food", ["snacks"])])] none).1)) :=
  ⟨by decide, sync_dirs_spec [] [("cn", [("food", ["snacks"])])] none (by decide)⟩

/-- C10: every store document reachable from `load` through the store
operations contains the country `"cn"`: `load` inserts it even when the
persisted document parses without it, and no operation removes a
country. -/
theorem reachable_contains_cn {d : Doc} (h : ReachDoc d) : "cn" ∈ countries d := by
  have hk : hasKey d "cn" = true := by
    induction h with
    | loaded raw => exact hasKey_normalizeDocCn raw
    | addedCountry c _ ih => exact hasKey_add_country c ih
    | addedCat1 c c1 _ ih => exact hasKey_add_cat1 c c1 ih
    | addedCat2 c c1 c2 _ ih => exact hasKey_add_cat2 c c1 c2 ih
    | removedCat1 c c1 _ ih => exact hasKey_remove_cat1 c c1 ih
    | removedCat2 c c1 c2 _ ih => exact hasKey_remove_cat2 c c1 c2 ih
    | saved _ ih => exact ih
  rw [countries]
  exact (sortStr_perm _).mem_iff.mpr ((hasKey_iff_mem_keys d "cn").mp hk)

/-- Witness for C10: the document loaded from an empty raw document (and
one more state after a removal) contains `"cn"`. -/
theorem reachable_contains_cn_witness :
    "cn" ∈ countries (remove_cat1 (normalizeDocCn []) "cn" "food").1 :=
  reachable_contains_cn (ReachDoc.removedCat1 "cn" "food" (ReachDoc.loaded []))

end DataRecords
